import Mathlib

/-!
# NeuronGuessr — Skeleton Graph Simplification & Scoring Engine: verification

Shallow embedding of the core logic of the `neuronguessr` repository
(`js/scoring.js`, `js/swc-parser.js`, `js/game-state.js`) together with
theorems settling the frozen claims about the natural-language spec.

Modelling conventions:
* JS numbers used in transcendental scoring formulas are modelled as `ℝ`;
  coordinates flowing through the skeleton parser are modelled as `ℚ`
  (all parser arithmetic is ring/compare arithmetic, so this keeps the
  embedding executable and decidable).
* `Math.round` is `round : ℝ → ℤ` (`⌊x + 1/2⌋`), which agrees with JS
  `Math.round` on the non-negative values produced here.
* A thrown JS exception is modelled by an `Option`-valued function
  returning `none`.
* JS `Map` lookups (insertion overwrites, so the *last* row with a given
  id wins) are modelled by recursive lookups preferring later list
  entries.
-/

namespace Scoring

/-- A 3D position, the `[x, y, z]` arrays consumed by `scoring.js`. -/
structure Vec3 where
  x : ℝ
  y : ℝ
  z : ℝ

/-- `MAX_LOCATION_POINTS` from scoring.js. -/
noncomputable def MAX_LOCATION_POINTS : ℝ := 5000

/-- `MAX_SYNAPSE_POINTS` from scoring.js. -/
noncomputable def MAX_SYNAPSE_POINTS : ℝ := 5000

/-- `MAX_POINTS` from scoring.js. -/
noncomputable def MAX_POINTS : ℝ := MAX_LOCATION_POINTS + MAX_SYNAPSE_POINTS

/-- `euclideanDistance(a, b)` from scoring.js. -/
noncomputable def euclideanDistance (a b : Vec3) : ℝ :=
  Real.sqrt ((a.x - b.x) * (a.x - b.x) + (a.y - b.y) * (a.y - b.y) +
    (a.z - b.z) * (a.z - b.z))

/-- The local tuning constant `const k = 3.5` in `computeLocationScore`. -/
noncomputable def scoringK : ℝ := 3.5

/-- Result record of `computeLocationScore` (`{ score, distance }`). -/
structure LocResult where
  score : ℤ
  distance : ℝ

/-- `computeLocationScore(guess, answer, maxDistance)` from scoring.js:
`round(5000 * exp(-(3.5 * d / maxDistance)^2))`. -/
noncomputable def computeLocationScore (guess answer : Vec3) (maxDistance : ℝ) :
    LocResult :=
  let distance := euclideanDistance guess answer
  let r := scoringK * distance / maxDistance
  { score := round (MAX_LOCATION_POINTS * Real.exp (-(r * r)))
    distance := distance }

/-- Result record of `computeSynapseScore` (`{ score, ratio }`); the JS
`Infinity` ratio of the degenerate branch is modelled as `none`. -/
structure SynResult where
  score : ℤ
  ratio : Option ℝ

/-- `computeSynapseScore(guess, actual)` from scoring.js:
score 0 on non-positive inputs, else
`round(5000 * exp(-1.5 * |ln(guess/actual)|))`. -/
noncomputable def computeSynapseScore (guess actual : ℝ) : SynResult :=
  if guess ≤ 0 ∨ actual ≤ 0 then { score := 0, ratio := none }
  else
    { score := round (MAX_SYNAPSE_POINTS *
        Real.exp (-(1.5 * |Real.log (guess / actual)|)))
      ratio := some (guess / actual) }

/-- `mirrorX(pos, midlineX)` from scoring.js:
`[2 * midlineX - pos[0], pos[1], pos[2]]`. -/
def mirrorX (pos : Vec3) (midlineX : ℝ) : Vec3 :=
  { x := 2 * midlineX - pos.x, y := pos.y, z := pos.z }

/-- Result record of `computeScore`. -/
structure ScoreResult where
  locationScore : ℤ
  synapseScore : ℤ
  score : ℤ
  distance : ℝ
  synapseRatio : Option ℝ
  usedAnswer : Vec3

/-- `computeScore(posGuess, posAnswer, maxDistance, synapseGuess,
synapseActual, midlineX)` from scoring.js.  A JS `null`/`undefined`
`midlineX` is the `none` case (`midlineX != null` is false). -/
noncomputable def computeScore (posGuess posAnswer : Vec3)
    (maxDistance synapseGuess synapseActual : ℝ) (midlineX : Option ℝ) :
    ScoreResult :=
  let loc := computeLocationScore posGuess posAnswer maxDistance
  let best :=
    match midlineX with
    | none => (loc, posAnswer)
    | some m =>
      let mirrored := mirrorX posAnswer m
      let locMirrored := computeLocationScore posGuess mirrored maxDistance
      if locMirrored.score > loc.score then (locMirrored, mirrored)
      else (loc, posAnswer)
  let syn := computeSynapseScore synapseGuess synapseActual
  { locationScore := best.1.score
    synapseScore := syn.score
    score := best.1.score + syn.score
    distance := best.1.distance
    synapseRatio := syn.ratio
    usedAnswer := best.2 }

end Scoring

namespace Game

/-- `ROUNDS_PER_GAME` from game-state.js. -/
def ROUNDS_PER_GAME : ℕ := 5

/-- The `phase` values of the game-state machine
(`start | guessing | result | final`). -/
inductive Phase where
  | start
  | guessing
  | result
  | final
deriving DecidableEq

/-- One entry of `roundScores` as pushed by `submitRound` in
game-state.js.  `synapseGuess` keeps the raw (possibly null) pending
guess the code stores; `neuronMeta` is `selectedNeurons[currentRound]`
(`none` models the out-of-range `undefined`). -/
structure RoundScore where
  score : ℤ
  locationScore : ℤ
  synapseScore : ℤ
  distance : ℝ
  synapseGuess : Option ℝ
  synapseActual : ℝ
  guess : Scoring.Vec3
  answer : Scoring.Vec3
  neuronMeta : Option String

/-- The mutable fields of the `GameState` class in game-state.js.
`selectedNeurons` entries are reduced to their identifying `file`
strings, the only part the state machine itself inspects. -/
structure GameState where
  currentRound : ℕ
  roundScores : List RoundScore
  totalScore : ℤ
  selectedNeurons : List String
  currentGuess : Option Scoring.Vec3
  currentSynapseGuess : Option ℝ
  phase : Phase

/-- `setGuess(position)` from game-state.js. -/
def setGuess (s : GameState) (p : Scoring.Vec3) : GameState :=
  { s with currentGuess := some p }

/-- `setSynapseGuess(count)` from game-state.js. -/
def setSynapseGuess (s : GameState) (c : ℝ) : GameState :=
  { s with currentSynapseGuess := some c }

/-- `submitRound(answerPosition, maxDistance, actualSynapses, midlineX)`
from game-state.js.  The function performs no guess validation: with
`currentGuess` null, `computeScore` dereferences the null array and the
call throws (modelled as `none`); with `currentSynapseGuess` null, the JS
comparison `null <= 0` inside `computeSynapseScore` coerces null to 0, so
the null is passed on as 0.  On success it returns the score result
together with the updated state. -/
noncomputable def submitRound (s : GameState) (answerPosition : Scoring.Vec3)
    (maxDistance actualSynapses : ℝ) (midlineX : Option ℝ) :
    Option (Scoring.ScoreResult × GameState) :=
  match s.currentGuess with
  | none => none
  | some g =>
    let result := Scoring.computeScore g answerPosition maxDistance
      (s.currentSynapseGuess.getD 0) actualSynapses midlineX
    some (result,
      { s with
        roundScores := s.roundScores ++
          [{ score := result.score
             locationScore := result.locationScore
             synapseScore := result.synapseScore
             distance := result.distance
             synapseGuess := s.currentSynapseGuess
             synapseActual := actualSynapses
             guess := g
             answer := result.usedAnswer
             neuronMeta := s.selectedNeurons.get? s.currentRound }]
        totalScore := s.totalScore + result.score
        phase := Phase.result })

/-- `nextRound()` from game-state.js: bump the round index, clear the
pending guesses, and move to `final` once the round count is reached,
else back to `guessing`. -/
def nextRound (s : GameState) : GameState :=
  let s1 := { s with
    currentRound := s.currentRound + 1
    currentGuess := none
    currentSynapseGuess := none }
  if s1.currentRound ≥ ROUNDS_PER_GAME then { s1 with phase := Phase.final }
  else { s1 with phase := Phase.guessing }

/-- `isGameOver()` from game-state.js:
`currentRound >= ROUNDS_PER_GAME - 1 && phase === 'result'`. -/
def isGameOver (s : GameState) : Bool :=
  decide (s.currentRound ≥ ROUNDS_PER_GAME - 1) && decide (s.phase = Phase.result)

/-- The per-round inputs a caller supplies during one guess/submit/next
cycle (guess position, synapse guess, and the `submitRound` arguments). -/
structure RoundInput where
  guessPos : Scoring.Vec3
  synGuess : ℝ
  answerPos : Scoring.Vec3
  maxDistance : ℝ
  actualSynapses : ℝ
  midlineX : Option ℝ

/-- One player turn up to submission: set both guesses, then submit
(the submission always succeeds because `setGuess` was called). -/
noncomputable def doSubmit (s : GameState) (inp : RoundInput) : GameState :=
  match submitRound (setSynapseGuess (setGuess s inp.guessPos) inp.synGuess)
      inp.answerPos inp.maxDistance inp.actualSynapses inp.midlineX with
  | some (_, s1) => s1
  | none => s

/-- A full round cycle: submit, then advance with `nextRound`. -/
noncomputable def playCycle (s : GameState) (inp : RoundInput) : GameState :=
  nextRound (doSubmit s inp)

/-- The trace of a game: state after `k` full round cycles from `s`. -/
noncomputable def playFrom (s : GameState) (inps : ℕ → RoundInput) :
    ℕ → GameState
  | 0 => s
  | k + 1 => playCycle (playFrom s inps k) (inps k)

end Game

namespace Parser

/-- A parsed SWC-style skeleton row `[rowId, x, y, z, radius, link]` as
consumed by swc-parser.js; `type` models the optional SWC type column
(`none` when the column is absent or the entry is missing). -/
structure Row where
  id : ℤ
  x : ℚ
  y : ℚ
  z : ℚ
  radius : ℚ
  link : ℤ
  type : Option ℤ := none
deriving DecidableEq

/-- A 3D point with rational coordinates (a `[x, y, z]` node array). -/
structure Pt where
  x : ℚ
  y : ℚ
  z : ℚ
deriving DecidableEq

/-- The `[row[iX], row[iY], row[iZ]]` position of a row. -/
def Row.pos (r : Row) : Pt := ⟨r.x, r.y, r.z⟩

/-- `MAX_NODES_BEFORE_DOWNSAMPLE` from swc-parser.js. -/
def MAX_NODES_BEFORE_DOWNSAMPLE : ℕ := 1000

/-- `KEEP_EVERY_NTH` from swc-parser.js. -/
def KEEP_EVERY_NTH : ℕ := 5

/-- Index lookup of a row id, as a JS `Map` built by inserting every row
in order: insertion overwrites, so the *last* row with the id wins. -/
def jsMapIdx (l : List Row) (i : ℤ) : Option ℕ :=
  match l with
  | [] => none
  | r :: rest =>
    match jsMapIdx rest i with
    | some j => some (j + 1)
    | none => if r.id = i then some 0 else none

/-- `linkMap.get(i)`: the `link` of the last row with id `i`, if any. -/
def jsLinkLookup (l : List Row) (i : ℤ) : Option ℤ :=
  match l with
  | [] => none
  | r :: rest =>
    match jsLinkLookup rest i with
    | some v => some v
    | none => if r.id = i then some r.link else none

/-- `linkMap.get(i) ?? -1` from `_downsampleSkeleton`. -/
def linkOf (rows : List Row) (i : ℤ) : ℤ := (jsLinkLookup rows i).getD (-1)

/-- The nodes of `_buildFullSkeleton`: one node per row in input order. -/
def fullNodes (rows : List Row) : List Pt := rows.map Row.pos

/-- The edges of `_buildFullSkeleton`: for each row whose `link` is a
non-negative known row id, the `(parentIndex, childIndex)` pair. -/
def fullEdges (rows : List Row) : List (ℕ × ℕ) :=
  rows.filterMap (fun r =>
    if (0 : ℤ) ≤ r.link then
      match jsMapIdx rows r.link, jsMapIdx rows r.id with
      | some pj, some cj => some (pj, cj)
      | _, _ => none
    else none)

/-- `_buildFullSkeleton(rows)` from swc-parser.js. -/
def buildFullSkeleton (rows : List Row) : List Pt × List (ℕ × ℕ) :=
  (fullNodes rows, fullEdges rows)

/-- Branch points: ids with more than one child, i.e. keys of
`parentCounts` (links different from `-1`) with count `> 1`. -/
def isBranchPoint (rows : List Row) (i : ℤ) : Bool :=
  decide (i ≠ -1) &&
    decide (2 ≤ (rows.filter (fun r => decide (r.link = i))).length)

/-- Membership in `allParents`: some row names `i` as its (non `-1`)
parent. -/
def isNamedParent (rows : List Row) (i : ℤ) : Bool :=
  rows.any (fun r => decide (r.link = i) && decide (r.link ≠ -1))

/-- Membership in `rootIds`: some row has id `i` and link `-1`. -/
def isRootId (rows : List Row) (i : ℤ) : Bool :=
  rows.any (fun r => decide (r.id = i) && decide (r.link = -1))

/-- Membership in `tips`: a node id never referenced as a parent. -/
def isTip (rows : List Row) (i : ℤ) : Bool :=
  rows.any (fun r => decide (r.id = i)) && !isNamedParent rows i

/-- Ids of every `KEEP_EVERY_NTH`-th row by input order (the
`for (i = 0; i < rows.length; i += KEEP_EVERY_NTH)` sampling), collected
by walking the list with its running index. -/
def strideAux : List Row → ℕ → List ℤ
  | [], _ => []
  | r :: rest, j =>
    if j % KEEP_EVERY_NTH = 0 then r.id :: strideAux rest (j + 1)
    else strideAux rest (j + 1)

/-- Whether id `i` is kept by the stride sampling. -/
def isStrideKept (rows : List Row) (i : ℤ) : Bool :=
  (strideAux rows 0).any (fun x => decide (x = i))

/-- Membership in `keepIds = branchPoints ∪ tips ∪ rootIds ∪ stride`. -/
def keepId (rows : List Row) (i : ℤ) : Bool :=
  isBranchPoint rows i || isTip rows i || isRootId rows i ||
    isStrideKept rows i

/-- `keptRows = rows.filter(r => keepIds.has(r[0]))`. -/
def keptRows (rows : List Row) : List Row :=
  rows.filter (fun r => keepId rows r.id)

/-- The `while (parent !== -1 && !keepIds.has(parent))` walk up the
original parent links, made total by fuel; `none` models the JS loop
not terminating (impossible for acyclic inputs, see
`effectiveParent_total_acyclic`). -/
def effectiveParent (rows : List Row) : ℕ → ℤ → Option ℤ
  | 0, p =>
    if p = -1 then some p else if keepId rows p then some p else none
  | fuel + 1, p =>
    if p = -1 then some p
    else if keepId rows p then some p
    else effectiveParent rows fuel (linkOf rows p)

/-- The reduced edge list: each kept row is linked to its nearest kept
ancestor when that ancestor exists (`parent !== -1 &&
newIdToIdx.has(parent)`). -/
def downsampleEdges (rows : List Row) : List (ℕ × ℕ) :=
  (keptRows rows).filterMap (fun r =>
    match effectiveParent rows rows.length r.link with
    | none => none
    | some p =>
      if p = -1 then none
      else
        match jsMapIdx (keptRows rows) p, jsMapIdx (keptRows rows) r.id with
        | some pj, some cj => some (pj, cj)
        | _, _ => none)

/-- `_downsampleSkeleton(rows)` from swc-parser.js. -/
def downsampleSkeleton (rows : List Row) : List Pt × List (ℕ × ℕ) :=
  ((keptRows rows).map Row.pos, downsampleEdges rows)

/-- Minimum of a list of rationals (the `Infinity`-seeded fold of the
source, on the non-empty inputs the parser feeds it). -/
def minQ (l : List ℚ) : ℚ :=
  match l with
  | [] => 0
  | h :: t => t.foldl min h

/-- Maximum of a list of rationals (the `-Infinity`-seeded fold). -/
def maxQ (l : List ℚ) : ℚ :=
  match l with
  | [] => 0
  | h :: t => t.foldl max h

/-- `Math.round(v * 10) / 10`: round to one decimal place. -/
def jsRound1 (v : ℚ) : ℚ := (round (v * 10) : ℤ) / 10

/-- The centroid computed in `parseSkeletonToNeuron`: component-wise mean
rounded to one decimal place. -/
def centroidOf (nodes : List Pt) : Pt :=
  let n : ℚ := nodes.length
  ⟨jsRound1 ((nodes.map Pt.x).sum / n), jsRound1 ((nodes.map Pt.y).sum / n),
    jsRound1 ((nodes.map Pt.z).sum / n)⟩

/-- The `{minX, minY, minZ, maxX, maxY, maxZ}` bounds record. -/
structure Bounds where
  minX : ℚ
  minY : ℚ
  minZ : ℚ
  maxX : ℚ
  maxY : ℚ
  maxZ : ℚ
deriving DecidableEq

/-- Component-wise bounds of the node set. -/
def boundsOf (nodes : List Pt) : Bounds :=
  ⟨minQ (nodes.map Pt.x), minQ (nodes.map Pt.y), minQ (nodes.map Pt.z),
    maxQ (nodes.map Pt.x), maxQ (nodes.map Pt.y), maxQ (nodes.map Pt.z)⟩

/-- Squared Euclidean distance from a row to a candidate point
(`dx*dx + dy*dy + dz*dz` in `_findSoma`). -/
def sqDistTo (r : Row) (cx cy cz : ℚ) : ℚ :=
  (r.x - cx) * (r.x - cx) + (r.y - cy) * (r.y - cy) +
    (r.z - cz) * (r.z - cz)

/-- The snap loop of `_findSoma`, carrying the current
`(bestDist, bestNode)` (`none` is the initial
`bestDist = Infinity, bestNode = null`; any finite distance beats it). -/
def snapAux (cx cy cz : ℚ) : List Row → Option (ℚ × Pt) → Option (ℚ × Pt)
  | [], best => best
  | r :: rest, best =>
    let d := sqDistTo r cx cy cz
    match best with
    | none => snapAux cx cy cz rest (some (d, r.pos))
    | some (bd, bp) =>
      if d < bd then snapAux cx cy cz rest (some (d, r.pos))
      else snapAux cx cy cz rest (some (bd, bp))

/-- Snap a candidate to the nearest skeleton row position. -/
def snapToNearest (rows : List Row) (cx cy cz : ℚ) : Option Pt :=
  (snapAux cx cy cz rows none).map (fun q => q.2)

/-- The bounding-box margin: the largest bounding-box dimension. -/
def margin (b : Bounds) : ℚ :=
  max (b.maxX - b.minX) (max (b.maxY - b.minY) (b.maxZ - b.minZ))

/-- The bounds test of soma strategy 1 (`true` = candidate accepted, the
negation of the `continue` condition in `_findSoma`). -/
def acceptScale (b : Bounds) (sx sy sz : ℚ) : Bool :=
  !(decide (sx < b.minX - margin b) || decide (sx > b.maxX + margin b) ||
    decide (sy < b.minY - margin b) || decide (sy > b.maxY + margin b) ||
    decide (sz < b.minZ - margin b) || decide (sz > b.maxZ + margin b))

/-- Strategy 1 of `_findSoma`: scaled metadata snap, scale 1 first, then
1/8; a scale is skipped when the scaled candidate falls outside the
margin-expanded bounding box.  `somaCoord` is the already-parsed result
of `_parseSomaLocation` (`none` when it does not parse to a 3-vector). -/
def somaStrategy1 (rows : List Row) (somaCoord : Option Pt) (b : Bounds) :
    Option Pt :=
  match somaCoord with
  | none => none
  | some c =>
    let tryScale := fun (scale : ℚ) =>
      if acceptScale b (c.x * scale) (c.y * scale) (c.z * scale) then
        snapToNearest rows (c.x * scale) (c.y * scale) (c.z * scale)
      else none
    tryScale 1 <|> tryScale (1 / 8)

/-- Strategy 2 of `_findSoma`: first row flagged with SWC type 1. -/
def somaStrategy2 (rows : List Row) : Option Pt :=
  (rows.find? (fun r => decide (r.type = some 1))).map Row.pos

/-- Strategy 3 of `_findSoma`: position of the row with the strictly
largest radius, provided it is positive (`bestRadius` starts at 0 and
only strictly larger radii replace it). -/
def somaStrategy3 (rows : List Row) : Option Pt :=
  (rows.foldl (fun best r =>
      match best with
      | none => if 0 < r.radius then some (r.radius, r.pos) else none
      | some (br, bp) =>
        if br < r.radius then some (r.radius, r.pos) else some (br, bp))
    none).map (fun q => q.2)

/-- Strategy 4 of `_findSoma`: the first root row (`link === -1`). -/
def somaStrategy4 (rows : List Row) : Option Pt :=
  (rows.find? (fun r => decide (r.link = -1))).map Row.pos

/-- `_findSoma(rows, columns, somaLocation, bounds)` from swc-parser.js,
with the column map already resolved into the `Row` record and
`somaLocation` already parsed. -/
def findSoma (rows : List Row) (somaCoord : Option Pt) (b : Bounds) :
    Option Pt :=
  if rows.isEmpty then none
  else
    somaStrategy1 rows somaCoord b <|> somaStrategy2 rows <|>
      somaStrategy3 rows <|> somaStrategy4 rows

/-- The neuPrint metadata consumed by `parseSkeletonToNeuron`;
`somaLocation` is pre-parsed (`_parseSomaLocation` accepts arrays,
x/y/z objects and JSON strings, all reduced here to `Option Pt`).
`instance` is a Lean keyword, hence `instanceName`. -/
structure Metadata where
  bodyId : ℤ
  type : Option String := none
  instanceName : Option String := none
  region : Option String := none
  pre : Option ℤ := none
  post : Option ℤ := none
  somaLocation : Option Pt := none

/-- The neuron record assembled by `parseSkeletonToNeuron`. -/
structure Neuron where
  id : ℤ
  type : String
  instanceName : String
  region : String
  pre : ℤ
  post : ℤ
  nodes : List Pt
  edges : List (ℕ × ℕ)
  centroid : Pt
  soma : Option Pt
  answer : Pt
  bounds : Bounds

/-- `parseSkeletonToNeuron(rows, metadata, columns)` from swc-parser.js;
the thrown `Empty skeleton data` error is the `none` case. -/
def parseSkeletonToNeuron (rows : List Row) (md : Metadata) :
    Option Neuron :=
  if rows.isEmpty then none
  else
    let ne :=
      if MAX_NODES_BEFORE_DOWNSAMPLE < rows.length then
        downsampleSkeleton rows
      else buildFullSkeleton rows
    let b := boundsOf ne.1
    let centroid := centroidOf ne.1
    let soma := findSoma rows md.somaLocation b
    let answer := match soma with | some s => s | none => centroid
    some
      { id := md.bodyId
        type := md.type.getD "unknown"
        instanceName := md.instanceName.getD ""
        region := md.region.getD ""
        pre := md.pre.getD 0
        post := md.post.getD 0
        nodes := ne.1
        edges := ne.2
        centroid := centroid
        soma := soma
        answer := answer
        bounds := b }

/-- The tree-input precondition of the reduction claims: distinct ids,
no row with the sentinel id `-1`, every link naming an existing row or
`-1`, and acyclicity witnessed by a depth function that strictly
decreases along parent links. -/
def TreeInput (rows : List Row) (depth : ℤ → ℕ) : Prop :=
  (rows.map Row.id).Nodup ∧
  (∀ r ∈ rows, r.id ≠ -1) ∧
  (∀ r ∈ rows, r.link = -1 ∨ r.link ∈ rows.map Row.id) ∧
  (∀ r ∈ rows, r.link ≠ -1 → depth r.link < depth r.id)

/-- The acyclicity precondition of the termination claim, exactly as the
claim states it: from every known id, following parent links (`linkOf`,
which maps dangling ids to `-1` via the JS `linkMap.get(parent) ?? -1`)
reaches `-1` or leaves the id set after finitely many steps.  Duplicate
ids and dangling parents are allowed. -/
def ChainsTerminate (rows : List Row) : Prop :=
  ∀ i ∈ rows.map Row.id, ∃ n : ℕ,
    (fun x => linkOf rows x)^[n] i = -1 ∨
    (fun x => linkOf rows x)^[n] i ∉ rows.map Row.id

end Parser

/-- C10: `mirrorX` is an involution that moves only the X coordinate:
for every position `p` and midline `m`, the Y and Z components are
unchanged and mirroring twice is the identity. -/
theorem mirrorX_involution (p : Scoring.Vec3) (m : ℝ) :
    (Scoring.mirrorX p m).y = p.y ∧ (Scoring.mirrorX p m).z = p.z ∧
      Scoring.mirrorX (Scoring.mirrorX p m) m = p := by
  refine ⟨rfl, rfl, ?_⟩
  simp only [Scoring.mirrorX]
  cases p with
  | mk x y z => simp

/-- C7: `computeLocationScore` uses the tuning constant `k = 3.5`; a guess
at distance 0 scores exactly 5000, and (for positive `maxDistance`) a guess
at distance `maxDistance / 2` scores `round (5000 * exp (-(1.75)^2))`. -/
theorem computeLocationScore_spec (guess answer : Scoring.Vec3) (maxD : ℝ) :
    Scoring.scoringK = 3.5 ∧
    (Scoring.euclideanDistance guess answer = 0 →
      (Scoring.computeLocationScore guess answer maxD).score = 5000) ∧
    (0 < maxD → Scoring.euclideanDistance guess answer = maxD / 2 →
      (Scoring.computeLocationScore guess answer maxD).score =
        round ((5000 : ℝ) * Real.exp (-(1.75 : ℝ) ^ 2))) := by
  refine ⟨rfl, ?_, ?_⟩
  · intro h0
    simp only [Scoring.computeLocationScore, Scoring.MAX_LOCATION_POINTS, h0,
      mul_zero, zero_div, neg_zero, Real.exp_zero, mul_one]
    norm_num
  · intro hpos hd
    have hne : maxD ≠ 0 := ne_of_gt hpos
    simp only [Scoring.computeLocationScore, Scoring.MAX_LOCATION_POINTS,
      Scoring.scoringK, hd]
    have hr : (3.5 : ℝ) * (maxD / 2) / maxD = 1.75 := by
      field_simp; ring
    rw [hr]
    norm_num

/-- C7 witness: the theorem applied at guess `(1,0,0)`, answer `(0,0,0)`,
`maxDistance = 2` (distance 1 = maxDistance / 2). -/
theorem computeLocationScore_spec_witness :
    (0 : ℝ) < 2 ∧
    Scoring.euclideanDistance ⟨1, 0, 0⟩ ⟨0, 0, 0⟩ = 2 / 2 ∧
    (Scoring.computeLocationScore ⟨1, 0, 0⟩ ⟨0, 0, 0⟩ 2).score =
      round ((5000 : ℝ) * Real.exp (-(1.75 : ℝ) ^ 2)) := by
  have hd : Scoring.euclideanDistance ⟨1, 0, 0⟩ ⟨0, 0, 0⟩ = 2 / 2 := by
    simp only [Scoring.euclideanDistance]
    norm_num
  exact ⟨by norm_num, hd,
    (computeLocationScore_spec ⟨1, 0, 0⟩ ⟨0, 0, 0⟩ 2).2.2 (by norm_num) hd⟩

/-- C8: `computeSynapseScore` returns 0 whenever either argument is
non-positive; a perfect guess scores exactly 5000; and the score is
symmetric under the reciprocal ratio (`c`-times too high scores the same
as `c`-times too low). -/
theorem computeSynapseScore_spec (g a c : ℝ) :
    ((g ≤ 0 ∨ a ≤ 0) → (Scoring.computeSynapseScore g a).score = 0) ∧
    (0 < a → (Scoring.computeSynapseScore a a).score = 5000) ∧
    (0 < a → 0 < c →
      (Scoring.computeSynapseScore (c * a) a).score =
        (Scoring.computeSynapseScore (a / c) a).score) := by
  refine ⟨?_, ?_, ?_⟩
  · intro h
    simp only [Scoring.computeSynapseScore, if_pos h]
  · intro ha
    have hne : ¬(a ≤ 0 ∨ a ≤ 0) := by
      push_neg; exact ⟨ha, ha⟩
    simp only [Scoring.computeSynapseScore, if_neg hne,
      Scoring.MAX_SYNAPSE_POINTS, div_self (ne_of_gt ha), Real.log_one,
      abs_zero, mul_zero, neg_zero, Real.exp_zero, mul_one]
    norm_num
  · intro ha hc
    have hca : 0 < c * a := mul_pos hc ha
    have hac : 0 < a / c := div_pos ha hc
    have hne1 : ¬(c * a ≤ 0 ∨ a ≤ 0) := by push_neg; exact ⟨hca, ha⟩
    have hne2 : ¬(a / c ≤ 0 ∨ a ≤ 0) := by push_neg; exact ⟨hac, ha⟩
    simp only [Scoring.computeSynapseScore, if_neg hne1, if_neg hne2]
    have h1 : c * a / a = c := by
      field_simp
    have h2 : a / c / a = c⁻¹ := by
      field_simp; ring
    rw [h1, h2, Real.log_inv, abs_neg]

/-- C8 witness: the theorem applied at `g = 0`, `a = 1`, `c = 2`. -/
theorem computeSynapseScore_spec_witness :
    ((0 : ℝ) ≤ 0 ∨ (1 : ℝ) ≤ 0) ∧ (0 : ℝ) < 1 ∧ (0 : ℝ) < 2 ∧
    (Scoring.computeSynapseScore 0 1).score = 0 ∧
    (Scoring.computeSynapseScore 1 1).score = 5000 ∧
    (Scoring.computeSynapseScore (2 * 1) 1).score =
      (Scoring.computeSynapseScore (1 / 2) 1).score := by
  refine ⟨Or.inl le_rfl, by norm_num, by norm_num, ?_, ?_, ?_⟩
  · exact (computeSynapseScore_spec 0 1 2).1 (Or.inl le_rfl)
  · exact (computeSynapseScore_spec 0 1 2).2.1 (by norm_num)
  · exact (computeSynapseScore_spec 0 1 2).2.2 (by norm_num) (by norm_num)

/-- C1 counterexample: when the answer lies on the midline the mirrored
answer coincides with the original, so `usedAnswer` equals the mirrored
answer even though the mirrored location score is not strictly greater
than the raw one — refuting the claimed "exactly when". -/
theorem computeScore_mirror_strict_iff_counterexample :
    (Scoring.computeScore ⟨1, 2, 3⟩ ⟨0, 0, 0⟩ 10 1 1 (some 0)).usedAnswer =
      Scoring.mirrorX ⟨0, 0, 0⟩ 0 ∧
    ¬((Scoring.computeLocationScore ⟨1, 2, 3⟩
        (Scoring.mirrorX ⟨0, 0, 0⟩ 0) 10).score >
      (Scoring.computeLocationScore ⟨1, 2, 3⟩ ⟨0, 0, 0⟩ 10).score) := by
  have hmir : Scoring.mirrorX ⟨0, 0, 0⟩ 0 = (⟨0, 0, 0⟩ : Scoring.Vec3) := by
    simp only [Scoring.mirrorX]
    norm_num
  constructor
  · simp only [Scoring.computeScore, hmir, gt_iff_lt, lt_irrefl, if_false]
  · rw [hmir]
    exact lt_irrefl _

/-- C1 (amended): with a midline given, `usedAnswer` is the mirrored
answer if the mirrored location score is strictly greater and the original
answer otherwise (the two coincide when mirroring fixes the answer);
`locationScore` is the greater of the two scores and the total is
`locationScore + synapseScore`; with no midline the raw answer and score
are used. -/
theorem computeScore_mirror_selection (guess answer : Scoring.Vec3)
    (maxD sg sa m : ℝ) :
    ((Scoring.computeScore guess answer maxD sg sa (some m)).usedAnswer =
      (if (Scoring.computeLocationScore guess (Scoring.mirrorX answer m)
            maxD).score >
          (Scoring.computeLocationScore guess answer maxD).score
        then Scoring.mirrorX answer m else answer)) ∧
    (Scoring.computeScore guess answer maxD sg sa (some m)).locationScore =
      max (Scoring.computeLocationScore guess answer maxD).score
        (Scoring.computeLocationScore guess (Scoring.mirrorX answer m)
          maxD).score ∧
    (Scoring.computeScore guess answer maxD sg sa (some m)).score =
      (Scoring.computeScore guess answer maxD sg sa (some m)).locationScore +
      (Scoring.computeScore guess answer maxD sg sa (some m)).synapseScore ∧
    (Scoring.computeScore guess answer maxD sg sa none).usedAnswer = answer ∧
    (Scoring.computeScore guess answer maxD sg sa none).locationScore =
      (Scoring.computeLocationScore guess answer maxD).score ∧
    (Scoring.computeScore guess answer maxD sg sa none).score =
      (Scoring.computeScore guess answer maxD sg sa none).locationScore +
      (Scoring.computeScore guess answer maxD sg sa none).synapseScore := by
  refine ⟨?_, ?_, ?_, rfl, rfl, rfl⟩
  · simp only [Scoring.computeScore]
    split <;> rfl
  · simp only [Scoring.computeScore]
    split
    · next h => exact (max_eq_right (le_of_lt h)).symm
    · next h => exact (max_eq_left (le_of_not_lt h)).symm
  · simp only [Scoring.computeScore]

/-- Helper: a submission made after setting both guess fields succeeds and
keeps the round index while moving the phase to `result`. -/
theorem doSubmit_round_phase (s : Game.GameState) (inp : Game.RoundInput) :
    (Game.doSubmit s inp).currentRound = s.currentRound ∧
    (Game.doSubmit s inp).phase = Game.Phase.result :=
  ⟨rfl, rfl⟩

/-- Helper: one full cycle bumps the round index. -/
theorem playCycle_round (s : Game.GameState) (inp : Game.RoundInput) :
    (Game.playCycle s inp).currentRound = s.currentRound + 1 := by
  simp only [Game.playCycle, Game.nextRound, (doSubmit_round_phase s inp).1]
  split <;> rfl

/-- Helper: the phase after one full cycle depends only on the new round
index reaching `ROUNDS_PER_GAME`. -/
theorem playCycle_phase (s : Game.GameState) (inp : Game.RoundInput) :
    (Game.playCycle s inp).phase =
      (if s.currentRound + 1 ≥ Game.ROUNDS_PER_GAME then Game.Phase.final
       else Game.Phase.guessing) := by
  simp only [Game.playCycle, Game.nextRound, (doSubmit_round_phase s inp).1]
  split <;> rfl

/-- C5: from a fresh game in phase `guessing`, after exactly 5
`submitRound`+`nextRound` cycles the phase is `final`; `isGameOver` is
true exactly after the 5th submission (round index 4, phase `result`) and
false at every pre- and post-cycle state, and in general (for round
indices within a game) it holds iff the round index is the last one and
the phase is `result`. -/
theorem gameState_five_rounds (s0 : Game.GameState)
    (inps : ℕ → Game.RoundInput) (hph : s0.phase = Game.Phase.guessing)
    (hr : s0.currentRound = 0) :
    (Game.playFrom s0 inps 5).phase = Game.Phase.final ∧
    (∀ k, (Game.playFrom s0 inps k).currentRound = k) ∧
    (∀ k, k < 5 → (Game.playFrom s0 inps k).phase = Game.Phase.guessing) ∧
    (∀ k, k < 5 →
      (Game.isGameOver (Game.doSubmit (Game.playFrom s0 inps k) (inps k)) =
          true ↔ k = 4)) ∧
    (∀ k, k ≤ 5 → Game.isGameOver (Game.playFrom s0 inps k) = false) ∧
    (∀ s : Game.GameState, s.currentRound ≤ Game.ROUNDS_PER_GAME - 1 →
      (Game.isGameOver s = true ↔
        (s.currentRound = Game.ROUNDS_PER_GAME - 1 ∧
          s.phase = Game.Phase.result))) := by
  have hround : ∀ k, (Game.playFrom s0 inps k).currentRound = k := by
    intro k
    induction k with
    | zero => exact hr
    | succ n ih =>
      show (Game.playCycle _ _).currentRound = n + 1
      rw [playCycle_round, ih]
  have hphase : ∀ k, k ≤ 5 → (Game.playFrom s0 inps k).phase =
      (if k ≥ 5 then Game.Phase.final else Game.Phase.guessing) := by
    intro k hk
    cases k with
    | zero => simpa using hph
    | succ n =>
      show (Game.playCycle _ _).phase = _
      rw [playCycle_phase, hround n]
      rfl
  refine ⟨?_, hround, ?_, ?_, ?_, ?_⟩
  · have := hphase 5 le_rfl
    simpa using this
  · intro k hk
    have := hphase k (le_of_lt hk)
    rw [this, if_neg (by omega)]
  · intro k hk
    simp only [Game.isGameOver, (doSubmit_round_phase _ _).1,
      (doSubmit_round_phase _ _).2, hround, Game.ROUNDS_PER_GAME]
    simp only [decide_eq_true_eq, Bool.and_eq_true, and_true, decide_True]
    omega
  · intro k hk
    have hp := hphase k hk
    simp only [Game.isGameOver, Bool.and_eq_true, decide_eq_true_eq, hp]
    rcases le_or_lt 5 k with h5 | h5
    · rw [if_pos h5]
      simp
    · rw [if_neg (by omega)]
      simp
  · intro s hs
    simp only [Game.isGameOver, Bool.and_eq_true, decide_eq_true_eq,
      Game.ROUNDS_PER_GAME] at *
    constructor
    · rintro ⟨h1, h2⟩
      exact ⟨by omega, h2⟩
    · rintro ⟨h1, h2⟩
      exact ⟨by omega, h2⟩

/-- C5 witness: the theorem applied to a concrete fresh game state and a
constant input stream. -/
theorem gameState_five_rounds_witness :
    (Game.GameState.mk 0 [] 0 [] none none Game.Phase.guessing).phase =
      Game.Phase.guessing ∧
    (Game.GameState.mk 0 [] 0 [] none none
      Game.Phase.guessing).currentRound = 0 ∧
    (Game.playFrom (Game.GameState.mk 0 [] 0 [] none none
        Game.Phase.guessing)
      (fun _ => ⟨⟨0, 0, 0⟩, 1, ⟨0, 0, 0⟩, 1, 1, none⟩) 5).phase =
      Game.Phase.final :=
  ⟨rfl, rfl, (gameState_five_rounds _ _ rfl rfl).1⟩

/-- C6 counterexample: a submission with the position guess set but no
synapse guess is not rejected: it succeeds, silently produces a degenerate
synapse score of 0, moves the phase to `result` and appends a round score
— the state machine performs no InvalidGuess check. -/
theorem submitRound_missing_guess_counterexample :
    (Game.submitRound
        (Game.GameState.mk 0 [] 0 [] (some ⟨0, 0, 0⟩) none
          Game.Phase.guessing) ⟨0, 0, 0⟩ 1 5 none).map
      (fun x => (x.1.synapseScore, x.2.phase, x.2.roundScores.length)) =
      some (0, Game.Phase.result, 1) := by
  simp only [Game.submitRound, Option.map_some', Option.getD_none,
    Scoring.computeScore, Scoring.computeSynapseScore]
  norm_num

/-- C6 (amended): `submitRound` performs no guess validation.  A
submission with no position guess fails like the unguarded JS null
dereference (modelled `none`), producing no new state; a submission with
the position guess set but no synapse guess proceeds silently with a
degenerate synapse score of 0, appending the round, accumulating the
total and setting the phase to `result`. -/
theorem submitRound_unvalidated (s : Game.GameState) (ans : Scoring.Vec3)
    (maxD act : ℝ) (mid : Option ℝ) :
    (s.currentGuess = none → Game.submitRound s ans maxD act mid = none) ∧
    (∀ g, s.currentGuess = some g → s.currentSynapseGuess = none →
      ∃ r s1, Game.submitRound s ans maxD act mid = some (r, s1) ∧
        r.synapseScore = 0 ∧ s1.phase = Game.Phase.result ∧
        s1.roundScores.length = s.roundScores.length + 1 ∧
        s1.totalScore = s.totalScore + r.score) := by
  constructor
  · intro h
    simp only [Game.submitRound, h]
  · intro g hg hsyn
    simp only [Game.submitRound, hg, hsyn]
    refine ⟨_, _, rfl, ?_, rfl, ?_, rfl⟩
    · simp only [Scoring.computeScore, Scoring.computeSynapseScore,
        Option.getD_none]
      norm_num
    · simp

/-- C6 witness: the amended theorem applied to a concrete state with no
position guess — the submission fails outright. -/
theorem submitRound_unvalidated_witness :
    (Game.GameState.mk 0 [] 0 [] none none
        Game.Phase.guessing).currentGuess = none ∧
    Game.submitRound
      (Game.GameState.mk 0 [] 0 [] none none Game.Phase.guessing)
      ⟨0, 0, 0⟩ 1 1 none = none :=
  ⟨rfl, (submitRound_unvalidated _ _ _ _ _).1 rfl⟩

/-- Helper: the snap loop started on a non-trivial accumulator returns a
best entry no worse than the accumulator, realised by the accumulator or
some row, and minimal among all rows of the list. -/
theorem snapAux_some_spec (cx cy cz : ℚ) (l : List Parser.Row) :
    ∀ bd bp, ∃ d p,
      Parser.snapAux cx cy cz l (some (bd, bp)) = some (d, p) ∧ d ≤ bd ∧
      ((d = bd ∧ p = bp) ∨
        ∃ r ∈ l, Parser.Row.pos r = p ∧ d = Parser.sqDistTo r cx cy cz) ∧
      (∀ r ∈ l, d ≤ Parser.sqDistTo r cx cy cz) := by
  induction l with
  | nil =>
    intro bd bp
    exact ⟨bd, bp, rfl, le_rfl, Or.inl ⟨rfl, rfl⟩, by simp⟩
  | cons r rest ih =>
    intro bd bp
    by_cases hlt : Parser.sqDistTo r cx cy cz < bd
    · obtain ⟨d, p, heq, hle, hw, hmin⟩ :=
        ih (Parser.sqDistTo r cx cy cz) r.pos
      refine ⟨d, p, ?_, le_trans hle (le_of_lt hlt), ?_, ?_⟩
      · simpa [Parser.snapAux, hlt] using heq
      · rcases hw with ⟨hd, hp⟩ | ⟨r2, hr2, hp2, hd2⟩
        · exact Or.inr ⟨r, List.mem_cons_self r rest, hp.symm ▸ rfl,  hd⟩
        · exact Or.inr ⟨r2, List.mem_cons_of_mem r hr2, hp2, hd2⟩
      · intro r2 hr2
        rcases List.mem_cons.mp hr2 with rfl | hr2
        · exact hle
        · exact hmin r2 hr2
    · obtain ⟨d, p, heq, hle, hw, hmin⟩ := ih bd bp
      refine ⟨d, p, ?_, hle, ?_, ?_⟩
      · simpa [Parser.snapAux, hlt] using heq
      · rcases hw with ⟨hd, hp⟩ | ⟨r2, hr2, hp2, hd2⟩
        · exact Or.inl ⟨hd, hp⟩
        · exact Or.inr ⟨r2, List.mem_cons_of_mem r hr2, hp2, hd2⟩
      · intro r2 hr2
        rcases List.mem_cons.mp hr2 with rfl | hr2
        · exact le_trans hle (not_lt.mp hlt)
        · exact hmin r2 hr2

/-- Helper: on a non-empty row list the snap returns the position of a
row with minimal squared distance to the candidate. -/
theorem snapToNearest_spec (rows : List Parser.Row) (cx cy cz : ℚ)
    (hne : rows ≠ []) :
    ∃ p r, Parser.snapToNearest rows cx cy cz = some p ∧ r ∈ rows ∧
      Parser.Row.pos r = p ∧
      (∀ r2 ∈ rows, Parser.sqDistTo r cx cy cz ≤ Parser.sqDistTo r2 cx cy cz) := by
  cases rows with
  | nil => exact absurd rfl hne
  | cons r0 rest =>
    obtain ⟨d, p, heq, hle, hw, hmin⟩ :=
      snapAux_some_spec cx cy cz rest (Parser.sqDistTo r0 cx cy cz) r0.pos
    have hrun : Parser.snapToNearest (r0 :: rest) cx cy cz = some p := by
      simp only [Parser.snapToNearest, Parser.snapAux, heq, Option.map_some']
    rcases hw with ⟨hd, hp⟩ | ⟨r2, hr2, hp2, hd2⟩
    · refine ⟨p, r0, hrun, List.mem_cons_self r0 rest, hp.symm, ?_⟩
      intro r2 hr2
      rcases List.mem_cons.mp hr2 with rfl | hr2
      · exact le_rfl
      · exact le_of_eq hd.symm |>.trans (hmin r2 hr2)
    · refine ⟨p, r2, hrun, List.mem_cons_of_mem r0 hr2, hp2, ?_⟩
      intro r3 hr3
      rcases List.mem_cons.mp hr3 with rfl | hr3
      · exact hd2 ▸ hle
      · exact hd2 ▸ hmin r3 hr3

/-- Helper: changing only radii changes nothing the snap loop reads. -/
theorem snapAux_radius_invariant (g : Parser.Row → ℚ) (cx cy cz : ℚ)
    (l : List Parser.Row) :
    ∀ best, Parser.snapAux cx cy cz
      (l.map (fun r => { r with radius := g r })) best =
      Parser.snapAux cx cy cz l best := by
  induction l with
  | nil => intro best; rfl
  | cons r rest ih =>
    intro best
    cases best with
    | none =>
      simp only [List.map_cons, Parser.snapAux]
      exact ih _
    | some bdp =>
      obtain ⟨bd, bp⟩ := bdp
      simp only [List.map_cons, Parser.snapAux]
      have hd : Parser.sqDistTo { r with radius := g r } cx cy cz =
          Parser.sqDistTo r cx cy cz := rfl
      have hp : Parser.Row.pos { r with radius := g r } = Parser.Row.pos r :=
        rfl
      rw [hd, hp]
      by_cases hlt : Parser.sqDistTo r cx cy cz < bd
      · simp only [if_pos hlt]
        exact ih _
      · simp only [if_neg hlt]
        exact ih _

/-- Helper: when the unscaled candidate is accepted, strategy 1 returns
the snap of the unscaled candidate. -/
theorem somaStrategy1_accept1 (rows : List Parser.Row) (c : Parser.Pt)
    (b : Parser.Bounds)
    (h1 : Parser.acceptScale b (c.x * 1) (c.y * 1) (c.z * 1) = true) :
    Parser.somaStrategy1 rows (some c) b =
      (Parser.snapToNearest rows (c.x * 1) (c.y * 1) (c.z * 1) <|>
        (if Parser.acceptScale b (c.x * (1 / 8)) (c.y * (1 / 8))
            (c.z * (1 / 8)) = true then
          Parser.snapToNearest rows (c.x * (1 / 8)) (c.y * (1 / 8))
            (c.z * (1 / 8))
        else none)) := by
  simp only [Parser.somaStrategy1, h1, if_true]

/-- C3: soma strategy 1 rejects each scale whose scaled candidate falls
outside the margin-expanded bounding box (yielding nothing if both fail);
on the first accepted scale `findSoma` returns the position of a row with
minimum squared distance to the scaled candidate, and (radii being
irrelevant to the snap) the result is unchanged under arbitrary
reassignment of all radii — even a far row of larger radius does not
win. -/
theorem findSoma_metadata_snap (rows : List Parser.Row) (c : Parser.Pt)
    (b : Parser.Bounds) (hne : rows ≠ []) :
    (Parser.acceptScale b (c.x * 1) (c.y * 1) (c.z * 1) = false →
      Parser.acceptScale b (c.x * (1 / 8)) (c.y * (1 / 8))
        (c.z * (1 / 8)) = false →
      Parser.somaStrategy1 rows (some c) b = none) ∧
    (Parser.acceptScale b (c.x * 1) (c.y * 1) (c.z * 1) = true →
      ∃ p r, Parser.findSoma rows (some c) b = some p ∧ r ∈ rows ∧
        Parser.Row.pos r = p ∧
        (∀ r2 ∈ rows, Parser.sqDistTo r (c.x * 1) (c.y * 1) (c.z * 1) ≤
          Parser.sqDistTo r2 (c.x * 1) (c.y * 1) (c.z * 1))) ∧
    (Parser.acceptScale b (c.x * 1) (c.y * 1) (c.z * 1) = false →
      Parser.acceptScale b (c.x * (1 / 8)) (c.y * (1 / 8))
        (c.z * (1 / 8)) = true →
      ∃ p r, Parser.findSoma rows (some c) b = some p ∧ r ∈ rows ∧
        Parser.Row.pos r = p ∧
        (∀ r2 ∈ rows,
          Parser.sqDistTo r (c.x * (1 / 8)) (c.y * (1 / 8))
            (c.z * (1 / 8)) ≤
          Parser.sqDistTo r2 (c.x * (1 / 8)) (c.y * (1 / 8))
            (c.z * (1 / 8)))) ∧
    (Parser.acceptScale b (c.x * 1) (c.y * 1) (c.z * 1) = true →
      ∀ g : Parser.Row → ℚ,
        Parser.findSoma (rows.map (fun r => { r with radius := g r }))
          (some c) b = Parser.findSoma rows (some c) b) := by
  have hemp : rows.isEmpty = false := by simpa using hne
  refine ⟨?_, ?_, ?_, ?_⟩
  · intro h1 h8
    simp only [Parser.somaStrategy1, h1, h8]
    simp
  · intro h1
    obtain ⟨p, r, hsnap, hr, hpos, hmin⟩ :=
      snapToNearest_spec rows (c.x * 1) (c.y * 1) (c.z * 1) hne
    refine ⟨p, r, ?_, hr, hpos, hmin⟩
    simp only [Parser.findSoma, hemp, Bool.false_eq_true, if_false,
      somaStrategy1_accept1 rows c b h1, hsnap, Option.some_orElse]
  · intro h1 h8
    obtain ⟨p, r, hsnap, hr, hpos, hmin⟩ :=
      snapToNearest_spec rows (c.x * (1 / 8)) (c.y * (1 / 8))
        (c.z * (1 / 8)) hne
    refine ⟨p, r, ?_, hr, hpos, hmin⟩
    simp only [Parser.findSoma, hemp, Bool.false_eq_true, if_false,
      Parser.somaStrategy1, h1, Bool.false_eq_true, if_false, h8, if_true,
      hsnap, Option.none_orElse, Option.some_orElse]
  · intro h1 g
    have hmemp : (rows.map (fun r => { r with radius := g r })).isEmpty =
        false := by
      simp only [List.isEmpty_eq_false, ne_eq, List.map_eq_nil_iff]
      exact hne
    obtain ⟨p, r, hsnap, hr, hpos, hmin⟩ :=
      snapToNearest_spec rows (c.x * 1) (c.y * 1) (c.z * 1) hne
    have hsnap2 : Parser.snapToNearest
        (rows.map (fun r => { r with radius := g r })) (c.x * 1) (c.y * 1)
        (c.z * 1) = some p := by
      simp only [Parser.snapToNearest, snapAux_radius_invariant]
      simpa [Parser.snapToNearest] using hsnap
    simp only [Parser.findSoma, hemp, hmemp, Bool.false_eq_true, if_false,
      somaStrategy1_accept1 _ c b h1, hsnap, hsnap2, Option.some_orElse]

/-- C3 witness: the theorem applied to two concrete rows — the snap
candidate sits next to the small-radius row while a far row has a much
larger radius — with bounds accepting scale 1. -/
theorem findSoma_metadata_snap_witness :
    (([⟨1, 0, 0, 0, 1, -1, none⟩, ⟨2, 100, 0, 0, 50, 1, none⟩] :
        List Parser.Row) ≠ []) ∧
    Parser.acceptScale ⟨0, 0, 0, 100, 0, 0⟩ ((Parser.Pt.mk 1 0 0).x * 1)
      ((Parser.Pt.mk 1 0 0).y * 1) ((Parser.Pt.mk 1 0 0).z * 1) = true ∧
    (∃ p r, Parser.findSoma
        [⟨1, 0, 0, 0, 1, -1, none⟩, ⟨2, 100, 0, 0, 50, 1, none⟩]
        (some ⟨1, 0, 0⟩) ⟨0, 0, 0, 100, 0, 0⟩ = some p ∧
      r ∈ ([⟨1, 0, 0, 0, 1, -1, none⟩, ⟨2, 100, 0, 0, 50, 1, none⟩] :
        List Parser.Row) ∧
      Parser.Row.pos r = p ∧
      (∀ r2 ∈ ([⟨1, 0, 0, 0, 1, -1, none⟩, ⟨2, 100, 0, 0, 50, 1, none⟩] :
          List Parser.Row),
        Parser.sqDistTo r ((Parser.Pt.mk 1 0 0).x * 1)
            ((Parser.Pt.mk 1 0 0).y * 1) ((Parser.Pt.mk 1 0 0).z * 1) ≤
          Parser.sqDistTo r2 ((Parser.Pt.mk 1 0 0).x * 1)
            ((Parser.Pt.mk 1 0 0).y * 1) ((Parser.Pt.mk 1 0 0).z * 1))) := by
  have hacc : Parser.acceptScale ⟨0, 0, 0, 100, 0, 0⟩
      ((Parser.Pt.mk 1 0 0).x * 1) ((Parser.Pt.mk 1 0 0).y * 1)
      ((Parser.Pt.mk 1 0 0).z * 1) = true := by
    simp only [Parser.acceptScale, Parser.margin, Bool.not_eq_true',
      Bool.or_eq_false_iff, decide_eq_false_iff_not, not_lt]
    norm_num
  exact ⟨by decide, hacc,
    (findSoma_metadata_snap
      [⟨1, 0, 0, 0, 1, -1, none⟩, ⟨2, 100, 0, 0, 50, 1, none⟩]
      ⟨1, 0, 0⟩ ⟨0, 0, 0, 100, 0, 0⟩ (by decide)).2.1 hacc⟩

/-- Helper: with a root row present, `findSoma` always succeeds — the
strategy-4 fallback alone is already some, and the strategy chain only
improves on it. -/
theorem findSoma_some_of_root (rows : List Parser.Row)
    (sc : Option Parser.Pt) (b : Parser.Bounds) (hne : rows ≠ [])
    (hroot : ∃ r ∈ rows, r.link = -1) :
    ∃ p, Parser.findSoma rows sc b = some p := by
  have hemp : rows.isEmpty = false := by simpa using hne
  have h4 : (Parser.somaStrategy4 rows).isSome = true := by
    have hfind : (rows.find? (fun r => decide (r.link = -1))).isSome = true := by
      rw [List.find?_isSome]
      obtain ⟨r, hr, hl⟩ := hroot
      exact ⟨r, hr, by simp [hl]⟩
    obtain ⟨r0, hr0⟩ := Option.isSome_iff_exists.mp hfind
    simp [Parser.somaStrategy4, hr0]
  simp only [Parser.findSoma, hemp, Bool.false_eq_true, if_false]
  cases h1 : Parser.somaStrategy1 rows sc b with
  | some p => exact ⟨p, by simp⟩
  | none =>
    cases h2 : Parser.somaStrategy2 rows with
    | some p => exact ⟨p, by simp⟩
    | none =>
      cases h3 : Parser.somaStrategy3 rows with
      | some p => exact ⟨p, by simp⟩
      | none =>
        cases h4x : Parser.somaStrategy4 rows with
        | some p => exact ⟨p, by simp⟩
        | none => rw [h4x] at h4; exact absurd h4 (by simp)

/-- C4: for a non-empty row collection containing a root row, the parsed
neuron record has non-null `soma` (the null branch of `_findSoma` is
unreachable) and its `answer` equals the resolved soma; in general the
`answer` of every parsed record is the soma if resolved, else the
centroid. -/
theorem parseSkeleton_soma_answer (rows : List Parser.Row)
    (md : Parser.Metadata) (hne : rows ≠ [])
    (hroot : ∃ r ∈ rows, r.link = -1) :
    (∀ rows2 md2 nr2,
      Parser.parseSkeletonToNeuron rows2 md2 = some nr2 →
        nr2.answer = nr2.soma.getD nr2.centroid) ∧
    ∃ nr s, Parser.parseSkeletonToNeuron rows md = some nr ∧
      nr.soma = some s ∧ nr.answer = s := by
  constructor
  · intro rows2 md2 nr2 h
    cases he : rows2.isEmpty with
    | true => simp [Parser.parseSkeletonToNeuron, he] at h
    | false =>
      simp only [Parser.parseSkeletonToNeuron, he, Bool.false_eq_true,
        if_false, Option.some.injEq] at h
      subst h
      cases hs : Parser.findSoma rows2 md2.somaLocation
          (Parser.boundsOf (if Parser.MAX_NODES_BEFORE_DOWNSAMPLE <
              rows2.length then Parser.downsampleSkeleton rows2
            else Parser.buildFullSkeleton rows2).1) with
      | none => simp [hs]
      | some s => simp [hs]
  · have hemp : rows.isEmpty = false := by simpa using hne
    obtain ⟨p, hp⟩ := findSoma_some_of_root rows md.somaLocation
      (Parser.boundsOf (if Parser.MAX_NODES_BEFORE_DOWNSAMPLE < rows.length
          then Parser.downsampleSkeleton rows
        else Parser.buildFullSkeleton rows).1) hne hroot
    cases hx : Parser.parseSkeletonToNeuron rows md with
    | none => simp [Parser.parseSkeletonToNeuron, hemp] at hx
    | some nr =>
      refine ⟨nr, p, rfl, ?_, ?_⟩ <;>
      · simp only [Parser.parseSkeletonToNeuron, hemp, Bool.false_eq_true,
          if_false, Option.some.injEq] at hx
        subst hx
        simp [hp]

/-- C4 witness: the theorem applied to a one-row skeleton whose single
row is a root. -/
theorem parseSkeleton_soma_answer_witness :
    (([⟨1, 0, 0, 0, 5, -1, none⟩] : List Parser.Row) ≠ []) ∧
    (∃ r ∈ ([⟨1, 0, 0, 0, 5, -1, none⟩] : List Parser.Row),
      r.link = -1) ∧
    ∃ nr s, Parser.parseSkeletonToNeuron [⟨1, 0, 0, 0, 5, -1, none⟩]
        ⟨7, none, none, none, none, none, none⟩ = some nr ∧
      nr.soma = some s ∧ nr.answer = s :=
  ⟨by decide, ⟨⟨1, 0, 0, 0, 5, -1, none⟩, by decide, rfl⟩,
    (parseSkeleton_soma_answer [⟨1, 0, 0, 0, 5, -1, none⟩]
      ⟨7, none, none, none, none, none, none⟩ (by decide)
      ⟨⟨1, 0, 0, 0, 5, -1, none⟩, by decide, rfl⟩).2⟩

/-- Helper: a lookup misses when the id occurs nowhere. -/
theorem jsLinkLookup_eq_none (l : List Parser.Row) (i : ℤ)
    (h : i ∉ l.map Parser.Row.id) : Parser.jsLinkLookup l i = none := by
  induction l with
  | nil => rfl
  | cons r rest ih =>
    simp only [List.map_cons, List.mem_cons, not_or] at h
    simp only [Parser.jsLinkLookup, ih h.2]
    rw [if_neg (fun he => h.1 he.symm)]

/-- Helper: with distinct ids, looking up a row's id returns its link. -/
theorem jsLinkLookup_eq_some (l : List Parser.Row)
    (hnd : (l.map Parser.Row.id).Nodup) (r : Parser.Row) (hr : r ∈ l) :
    Parser.jsLinkLookup l r.id = some r.link := by
  induction l with
  | nil => cases hr
  | cons r0 rest ih =>
    simp only [List.map_cons, List.nodup_cons] at hnd
    rcases List.mem_cons.mp hr with rfl | hmem
    · have hnone : Parser.jsLinkLookup rest r.id = none :=
        jsLinkLookup_eq_none rest r.id hnd.1
      simp [Parser.jsLinkLookup, hnone]
    · simp only [Parser.jsLinkLookup, ih hnd.2 hmem]

/-- Helper: with distinct ids, `linkOf` maps a row's id to its link. -/
theorem linkOf_eq (rows : List Parser.Row)
    (hnd : (rows.map Parser.Row.id).Nodup) (r : Parser.Row) (hr : r ∈ rows) :
    Parser.linkOf rows r.id = r.link := by
  simp only [Parser.linkOf, jsLinkLookup_eq_some rows hnd r hr, Option.getD_some]

/-- Helper: the index lookup misses when the id occurs nowhere. -/
theorem jsMapIdx_eq_none (l : List Parser.Row) (i : ℤ)
    (h : i ∉ l.map Parser.Row.id) : Parser.jsMapIdx l i = none := by
  induction l with
  | nil => rfl
  | cons r rest ih =>
    simp only [List.map_cons, List.mem_cons, not_or] at h
    simp only [Parser.jsMapIdx, ih h.2]
    rw [if_neg (fun he => h.1 he.symm)]


/-- Helper: the index lookup succeeds for every id present in the list. -/
theorem jsMapIdx_isSome (l : List Parser.Row) (i : ℤ)
    (h : i ∈ l.map Parser.Row.id) : (Parser.jsMapIdx l i).isSome = true := by
  induction l with
  | nil => cases h
  | cons r rest ih =>
    by_cases hm : i ∈ rest.map Parser.Row.id
    · obtain ⟨j, hj⟩ := Option.isSome_iff_exists.mp (ih hm)
      simp [Parser.jsMapIdx, hj]
    · have hi : i = r.id := by
        simp only [List.map_cons, List.mem_cons] at h
        tauto
      subst hi
      cases hrest : Parser.jsMapIdx rest r.id <;>
        simp [Parser.jsMapIdx, hrest]

/-- Helper: a successful index lookup points at an entry carrying the
looked-up id. -/
theorem jsMapIdx_get (l : List Parser.Row) (i : ℤ) (j : ℕ)
    (h : Parser.jsMapIdx l i = some j) :
    ∃ hj : j < l.length, (l.get ⟨j, hj⟩).id = i := by
  induction l generalizing j with
  | nil => cases h
  | cons r rest ih =>
    simp only [Parser.jsMapIdx] at h
    cases hrest : Parser.jsMapIdx rest i with
    | some j2 =>
      rw [hrest] at h
      obtain rfl : j2 + 1 = j := by simpa using h
      obtain ⟨hj2, hid⟩ := ih j2 hrest
      exact ⟨by simpa using Nat.succ_lt_succ hj2, hid⟩
    | none =>
      rw [hrest] at h
      by_cases hi : r.id = i
      · rw [if_pos hi] at h
        obtain rfl : 0 = j := by simpa using h
        exact ⟨by simp, hi⟩
      · rw [if_neg hi] at h
        cases h

/-- Helper: a root row's id is always in the keep set. -/
theorem keepId_of_root (rows : List Parser.Row) (r : Parser.Row)
    (hr : r ∈ rows) (hl : r.link = -1) :
    Parser.keepId rows r.id = true := by
  have hroot : Parser.isRootId rows r.id = true := by
    simp only [Parser.isRootId, List.any_eq_true]
    exact ⟨r, hr, by simp [hl]⟩
  simp [Parser.keepId, hroot]

/-- Helper: elements collected by the stride walk are exactly the ids at
offsets whose running index is divisible by the stride. -/
theorem strideAux_mem (l : List Parser.Row) :
    ∀ j x, x ∈ Parser.strideAux l j ↔
      ∃ k, ∃ hk : k < l.length, (j + k) % Parser.KEEP_EVERY_NTH = 0 ∧
        (l.get ⟨k, hk⟩).id = x := by
  induction l with
  | nil =>
    intro j x
    simp [Parser.strideAux]
  | cons r rest ih =>
    intro j x
    constructor
    · intro hx
      by_cases hj : j % Parser.KEEP_EVERY_NTH = 0
      · rw [Parser.strideAux, if_pos hj] at hx
        rcases List.mem_cons.mp hx with rfl | hx2
        · exact ⟨0, by simp, by simpa using hj, rfl⟩
        · obtain ⟨k, hk, hmod, hid⟩ := (ih (j + 1) x).mp hx2
          exact ⟨k + 1, by simpa using Nat.succ_lt_succ hk,
            by rw [show j + (k + 1) = j + 1 + k by omega]; exact hmod,
            hid⟩
      · rw [Parser.strideAux, if_neg hj] at hx
        obtain ⟨k, hk, hmod, hid⟩ := (ih (j + 1) x).mp hx
        exact ⟨k + 1, by simpa using Nat.succ_lt_succ hk,
          by rw [show j + (k + 1) = j + 1 + k by omega]; exact hmod, hid⟩
    · rintro ⟨k, hk, hmod, hid⟩
      cases k with
      | zero =>
        have hj : j % Parser.KEEP_EVERY_NTH = 0 := by simpa using hmod
        rw [Parser.strideAux, if_pos hj]
        subst hid
        exact List.mem_cons_self _ _
      | succ k2 =>
        have hk2 : k2 < rest.length := by simpa using Nat.lt_of_succ_lt_succ hk
        have hmem : x ∈ Parser.strideAux rest (j + 1) := by
          refine (ih (j + 1) x).mpr ⟨k2, hk2, ?_, ?_⟩
          · rw [show j + 1 + k2 = j + (k2 + 1) by omega]; exact hmod
          · simpa using hid
        by_cases hj : j % Parser.KEEP_EVERY_NTH = 0
        · rw [Parser.strideAux, if_pos hj]
          exact List.mem_cons_of_mem _ hmem
        · rw [Parser.strideAux, if_neg hj]
          exact hmem

/-- Helper: a pointwise-implied predicate with a strict witness has a
strictly smaller count. -/
theorem countP_lt_of_witness {α : Type} (l : List α) (p q : α → Bool)
    (hpq : ∀ a ∈ l, p a = true → q a = true) (a0 : α) (ha0 : a0 ∈ l)
    (hq : q a0 = true) (hp : p a0 = false) :
    l.countP p < l.countP q := by
  induction l with
  | nil => cases ha0
  | cons a rest ih =>
    rw [List.countP_cons, List.countP_cons]
    rcases List.mem_cons.mp ha0 with rfl | hmem
    · have hle : rest.countP p ≤ rest.countP q :=
        List.countP_mono_left (fun a ha hpa =>
          hpq a (List.mem_cons_of_mem _ ha) hpa)
      rw [hp, hq]
      simp only [Bool.false_eq_true, if_false, if_true]
      omega
    · have hlt : rest.countP p < rest.countP q :=
        ih (fun a ha hpa => hpq a (List.mem_cons_of_mem _ ha) hpa) hmem
      have hhead : (if p a = true then 1 else 0) ≤
          (if q a = true then 1 else 0) := by
        by_cases hpa : p a = true
        · rw [if_pos hpa, if_pos (hpq a (List.mem_cons_self a rest) hpa)]
        · rw [if_neg hpa]
          omega
      omega

/-- Helper: the walk started at `-1` stops immediately. -/
theorem effectiveParent_neg_one (rows : List Parser.Row) :
    ∀ fuel, Parser.effectiveParent rows fuel (-1) = some (-1) := by
  intro fuel
  cases fuel <;> simp [Parser.effectiveParent]

/-- Helper: a successful walk returns the first element of the original
parent chain that is kept or `-1`; every earlier chain element is neither. -/
theorem effectiveParent_spec (rows : List Parser.Row) :
    ∀ fuel p q, Parser.effectiveParent rows fuel p = some q →
      ∃ k, q = (fun x => Parser.linkOf rows x)^[k] p ∧
        (∀ j < k, (fun x => Parser.linkOf rows x)^[j] p ≠ -1 ∧
          Parser.keepId rows ((fun x => Parser.linkOf rows x)^[j] p) =
            false) ∧
        (q = -1 ∨ Parser.keepId rows q = true) := by
  intro fuel
  induction fuel with
  | zero =>
    intro p q h
    simp only [Parser.effectiveParent] at h
    by_cases hp : p = -1
    · rw [if_pos hp] at h
      obtain rfl : p = q := by simpa using h
      exact ⟨0, by simp, by omega, Or.inl hp⟩
    · rw [if_neg hp] at h
      by_cases hk : Parser.keepId rows p = true
      · rw [if_pos hk] at h
        obtain rfl : p = q := by simpa using h
        exact ⟨0, by simp, by omega, Or.inr hk⟩
      · rw [if_neg hk] at h
        cases h
  | succ n ih =>
    intro p q h
    simp only [Parser.effectiveParent] at h
    by_cases hp : p = -1
    · rw [if_pos hp] at h
      obtain rfl : p = q := by simpa using h
      exact ⟨0, by simp, by omega, Or.inl hp⟩
    · rw [if_neg hp] at h
      by_cases hk : Parser.keepId rows p = true
      · rw [if_pos hk] at h
        obtain rfl : p = q := by simpa using h
        exact ⟨0, by simp, by omega, Or.inr hk⟩
      · rw [if_neg hk] at h
        obtain ⟨k, hq, hint, hterm⟩ := ih (Parser.linkOf rows p) q h
        refine ⟨k + 1, ?_, ?_, hterm⟩
        · rw [Function.iterate_succ_apply]
          exact hq
        · intro j hj
          cases j with
          | zero =>
            refine ⟨by simpa using hp, ?_⟩
            simpa using Bool.not_eq_true _ |>.mp hk
          | succ j2 =>
            have := hint j2 (by omega)
            simpa [Function.iterate_succ_apply] using this

/-- Helper: on acyclic input (`TreeInput`) the walk succeeds whenever the
fuel covers the number of rows at most as deep as the start; `rows.length`
always does. -/
theorem effectiveParent_succeeds (rows : List Parser.Row) (depth : ℤ → ℕ)
    (ht : Parser.TreeInput rows depth) :
    ∀ fuel p, (p = -1 ∨ p ∈ rows.map Parser.Row.id) →
      rows.countP (fun r2 => decide (depth r2.id ≤ depth p)) ≤ fuel →
      ∃ q, Parser.effectiveParent rows fuel p = some q := by
  obtain ⟨hnd, hid, hlink, hdec⟩ := ht
  intro fuel
  induction fuel with
  | zero =>
    intro p hp hcount
    rcases hp with rfl | hpin
    · exact ⟨-1, effectiveParent_neg_one rows 0⟩
    · exfalso
      obtain ⟨r, hr, hrid⟩ := List.mem_map.mp hpin
      have hpos : 0 <
          rows.countP (fun r2 => decide (depth r2.id ≤ depth p)) :=
        List.countP_pos_iff.mpr ⟨r, hr, by simp [hrid]⟩
      omega
  | succ n ih =>
    intro p hp hcount
    rcases hp with rfl | hpin
    · exact ⟨-1, effectiveParent_neg_one rows (n + 1)⟩
    · obtain ⟨r, hr, hrid⟩ := List.mem_map.mp hpin
      have hpne : p ≠ -1 := hrid ▸ hid r hr
      by_cases hk : Parser.keepId rows p = true
      · exact ⟨p, by simp [Parser.effectiveParent, hpne, hk]⟩
      · have hstep : Parser.linkOf rows p = r.link :=
          hrid ▸ linkOf_eq rows hnd r hr
        rcases hlink r hr with hrl | hrlin
        · refine ⟨-1, ?_⟩
          have hred : Parser.effectiveParent rows (n + 1) p =
              Parser.effectiveParent rows n (-1) := by
            simp [Parser.effectiveParent, hpne, hk, hstep, hrl]
          rw [hred]
          exact effectiveParent_neg_one rows n
        · obtain ⟨r2, hr2, hr2id⟩ := List.mem_map.mp hrlin
          have hlne : r.link ≠ -1 := hr2id ▸ hid r2 hr2
          have hd : depth r.link < depth p := by
            rw [← hrid]
            exact hdec r hr hlne
          have hcount2 :
              rows.countP (fun r2 => decide (depth r2.id ≤ depth r.link)) <
              rows.countP (fun r2 => decide (depth r2.id ≤ depth p)) := by
            refine countP_lt_of_witness rows _ _ ?_ r hr ?_ ?_
            · intro a ha hpa
              simp only [decide_eq_true_eq] at hpa ⊢
              omega
            · simp [hrid]
            · simp only [decide_eq_false_iff_not, not_le, hrid]
              omega
          obtain ⟨q, hq⟩ := ih r.link (Or.inr hrlin) (by omega)
          refine ⟨q, ?_⟩
          have hred : Parser.effectiveParent rows (n + 1) p =
              Parser.effectiveParent rows n r.link := by
            simp [Parser.effectiveParent, hpne, hk, hstep]
          rw [hred]
          exact hq

/-- Helper: under the stronger `TreeInput` precondition the walk with
fuel `rows.length` succeeds for every kept row (used by the reduction
theorem, whose claim assumes `TreeInput`). -/
theorem effectiveParent_some_of_tree (rows : List Parser.Row)
    (depth : ℤ → ℕ) (ht : Parser.TreeInput rows depth) :
    ∀ r ∈ Parser.keptRows rows, ∃ q,
      Parser.effectiveParent rows rows.length r.link = some q ∧
      (q = -1 ∨ Parser.keepId rows q = true) := by
  intro r hr
  have hrrows : r ∈ rows := List.mem_of_mem_filter hr
  have hstart : r.link = -1 ∨ r.link ∈ rows.map Parser.Row.id :=
    ht.2.2.1 r hrrows
  obtain ⟨q, hq⟩ := effectiveParent_succeeds rows depth ht rows.length
    r.link hstart (List.countP_le_length _)
  obtain ⟨k, _, _, hterm⟩ :=
    effectiveParent_spec rows rows.length r.link q hq
  exact ⟨q, hq, hterm⟩

/-- Helper: along a parent chain that has not yet hit `-1`, every element
is a known id and the depth never increases. -/
theorem chain_props (rows : List Parser.Row) (depth : ℤ → ℕ)
    (ht : Parser.TreeInput rows depth) (p : ℤ)
    (hpin : p ∈ rows.map Parser.Row.id) :
    ∀ k, (∀ j < k, (fun x => Parser.linkOf rows x)^[j] p ≠ -1) →
      (fun x => Parser.linkOf rows x)^[k] p ≠ -1 →
      (fun x => Parser.linkOf rows x)^[k] p ∈ rows.map Parser.Row.id ∧
        depth ((fun x => Parser.linkOf rows x)^[k] p) ≤ depth p := by
  obtain ⟨hnd, hid, hlink, hdec⟩ := ht
  intro k
  induction k with
  | zero =>
    intro _ _
    exact ⟨hpin, le_rfl⟩
  | succ n ih =>
    intro hint hlast
    have hprev := ih (fun j hj => hint j (by omega)) (hint n (by omega))
    obtain ⟨rk, hrk, hrkid⟩ := List.mem_map.mp hprev.1
    have hstep : (fun x => Parser.linkOf rows x)^[n + 1] p = rk.link := by
      rw [Function.iterate_succ_apply', ← hrkid]
      exact hrkid ▸ linkOf_eq rows hnd rk hrk
    rw [hstep]
    rw [hstep] at hlast
    constructor
    · exact (hlink rk hrk).resolve_left hlast
    · have : depth rk.link < depth rk.id := hdec rk hrk hlast
      rw [hrkid] at this
      exact le_trans (le_of_lt this) hprev.2

/-- Helper: for a non-root row of an acyclic input, a successful walk
ends at a kept, known id no deeper than the starting link. -/
theorem effectiveParent_result_props (rows : List Parser.Row)
    (depth : ℤ → ℕ) (ht : Parser.TreeInput rows depth) (r : Parser.Row)
    (hr : r ∈ rows) (hl : r.link ≠ -1) (q : ℤ)
    (hq : Parser.effectiveParent rows rows.length r.link = some q) :
    q ≠ -1 ∧ Parser.keepId rows q = true ∧
      q ∈ rows.map Parser.Row.id ∧ depth q ≤ depth r.link := by
  obtain ⟨k, hqe, hint, hterm⟩ :=
    effectiveParent_spec rows rows.length r.link q hq
  have hlinkin : r.link ∈ rows.map Parser.Row.id :=
    (ht.2.2.1 r hr).resolve_left hl
  by_cases hqneg : q = -1
  · exfalso
    cases k with
    | zero =>
      rw [hqe] at hqneg
      simp at hqneg
      exact hl hqneg
    | succ k2 =>
      have hw := chain_props rows depth ht r.link hlinkin k2
        (fun j hj => (hint j (by omega)).1) (hint k2 (by omega)).1
      obtain ⟨rw2, hrw2, hrw2id⟩ := List.mem_map.mp hw.1
      have hstep : (fun x => Parser.linkOf rows x)^[k2 + 1] r.link =
          rw2.link := by
        rw [Function.iterate_succ_apply', ← hrw2id]
        exact hrw2id ▸ linkOf_eq rows ht.1 rw2 hrw2
      have hrwlink : rw2.link = -1 := by
        rw [← hstep, ← hqe]
        exact hqneg
      have hkeep : Parser.keepId rows rw2.id = true :=
        keepId_of_root rows rw2 hrw2 hrwlink
      rw [hrw2id] at hkeep
      have hnotkeep := (hint k2 (by omega)).2
      rw [hkeep] at hnotkeep
      cases hnotkeep
  · have hkeep := hterm.resolve_left hqneg
    have hlastne : (fun x => Parser.linkOf rows x)^[k] r.link ≠ -1 := by
      rw [← hqe]
      exact hqneg
    have hchain := chain_props rows depth ht r.link hlinkin k
      (fun j hj => (hint j hj).1) hlastne
    rw [← hqe] at hchain
    exact ⟨hqneg, hkeep, hchain.1, hchain.2⟩

/-- Helper: inverting membership in the reduced edge list — every edge
comes from a kept row, its second index locating that row and its first
the row of the walked-to kept ancestor. -/
theorem mem_downsampleEdges_inv (rows : List Parser.Row) (e : ℕ × ℕ)
    (h : e ∈ Parser.downsampleEdges rows) :
    ∃ r2, r2 ∈ Parser.keptRows rows ∧ r2.link ≠ -1 ∧ ∃ p pj,
      Parser.effectiveParent rows rows.length r2.link = some p ∧ p ≠ -1 ∧
      Parser.jsMapIdx (Parser.keptRows rows) p = some pj ∧
      Parser.jsMapIdx (Parser.keptRows rows) r2.id = some e.2 ∧
      e = (pj, e.2) := by
  obtain ⟨r2, hr2, hf⟩ := List.mem_filterMap.mp h
  cases hp : Parser.effectiveParent rows rows.length r2.link with
  | none =>
    simp [hp] at hf
  | some p =>
    simp only [hp] at hf
    by_cases hpneg : p = -1
    · rw [if_pos hpneg] at hf
      cases hf
    · rw [if_neg hpneg] at hf
      cases hpj : Parser.jsMapIdx (Parser.keptRows rows) p with
      | none =>
        rw [hpj] at hf
        cases hcj : Parser.jsMapIdx (Parser.keptRows rows) r2.id with
        | none => rw [hcj] at hf; cases hf
        | some cj => rw [hcj] at hf; cases hf
      | some pj =>
        rw [hpj] at hf
        cases hcj : Parser.jsMapIdx (Parser.keptRows rows) r2.id with
        | none => rw [hcj] at hf; cases hf
        | some cj =>
          rw [hcj] at hf
          obtain rfl : (pj, cj) = e := by simpa using hf
          have hl2 : r2.link ≠ -1 := by
            intro habs
            rw [habs, effectiveParent_neg_one rows rows.length] at hp
            obtain rfl : (-1 : ℤ) = p := by simpa using hp
            exact hpneg rfl
          exact ⟨r2, hr2, hl2, p, pj, hp, hpneg, hpj, hcj, rfl⟩

/-- Helper: every non-root kept row produces its edge in the reduced
edge list, pointing from the nearest kept ancestor's index to its own. -/
theorem downsampleEdge_of_kept (rows : List Parser.Row) (depth : ℤ → ℕ)
    (ht : Parser.TreeInput rows depth) (r : Parser.Row)
    (hr : r ∈ Parser.keptRows rows) (hl : r.link ≠ -1) :
    ∃ q pj cj,
      Parser.effectiveParent rows rows.length r.link = some q ∧
      Parser.keepId rows q = true ∧ q ≠ -1 ∧
      Parser.jsMapIdx (Parser.keptRows rows) q = some pj ∧
      Parser.jsMapIdx (Parser.keptRows rows) r.id = some cj ∧
      (pj, cj) ∈ Parser.downsampleEdges rows ∧
      depth q ≤ depth r.link := by
  have hrrows : r ∈ rows := List.mem_of_mem_filter hr
  obtain ⟨q, hq, _⟩ := effectiveParent_some_of_tree rows depth ht r hr
  obtain ⟨hqneg, hkeep, hqin, hdep⟩ :=
    effectiveParent_result_props rows depth ht r hrrows hl q hq
  obtain ⟨rq, hrq, hrqid⟩ := List.mem_map.mp hqin
  have hrqkept : rq ∈ Parser.keptRows rows := by
    rw [Parser.keptRows, List.mem_filter]
    exact ⟨hrq, by rw [hrqid]; exact hkeep⟩
  have hqkid : q ∈ (Parser.keptRows rows).map Parser.Row.id :=
    List.mem_map.mpr ⟨rq, hrqkept, hrqid⟩
  have hrkid : r.id ∈ (Parser.keptRows rows).map Parser.Row.id :=
    List.mem_map.mpr ⟨r, hr, rfl⟩
  obtain ⟨pj, hpj⟩ :=
    Option.isSome_iff_exists.mp (jsMapIdx_isSome _ q hqkid)
  obtain ⟨cj, hcj⟩ :=
    Option.isSome_iff_exists.mp (jsMapIdx_isSome _ r.id hrkid)
  refine ⟨q, pj, cj, hq, hkeep, hqneg, hpj, hcj, ?_, hdep⟩
  refine List.mem_filterMap.mpr ⟨r, hr, ?_⟩
  simp [hq, hqneg, hpj, hcj]

/-- Helper: a nodup list where exactly one element maps to a value
passing the filter yields a one-element filtered image. -/
theorem filterMap_filter_length_one {α β : Type} (l : List α)
    (f : α → Option β) (pb : β → Bool) (a0 : α) (ha : a0 ∈ l)
    (hnd : l.Nodup) (b0 : β) (hb : f a0 = some b0) (hpb : pb b0 = true)
    (huniq : ∀ a ∈ l, ∀ b, f a = some b → pb b = true → a = a0) :
    ((l.filterMap f).filter pb).length = 1 := by
  induction l with
  | nil => cases ha
  | cons a rest ih =>
    rw [List.nodup_cons] at hnd
    by_cases haa : a = a0
    · subst haa
      rw [List.filterMap_cons_some hb, List.filter_cons, if_pos hpb]
      have hrest0 : ((rest.filterMap f).filter pb) = [] := by
        rw [List.filter_eq_nil_iff]
        intro b hbmem hpbb
        obtain ⟨a2, ha2, hfa2⟩ := List.mem_filterMap.mp hbmem
        have : a2 = a := huniq a2 (List.mem_cons_of_mem _ ha2) b hfa2 hpbb
        subst this
        exact hnd.1 ha2
      simp [hrest0]
    · have ha0rest : a0 ∈ rest := by
        rcases List.mem_cons.mp ha with rfl | hm
        · exact absurd rfl haa
        · exact hm
      have hih := ih ha0rest hnd.2
        (fun a2 ha2 b hfa2 hpbb =>
          huniq a2 (List.mem_cons_of_mem _ ha2) b hfa2 hpbb)
      cases hfa : f a with
      | none => rw [List.filterMap_cons_none hfa]; exact hih
      | some b =>
        have hpbb : pb b = false := by
          cases hpbv : pb b with
          | false => rfl
          | true =>
            exact absurd (huniq a (List.mem_cons_self a rest) b hfa hpbv)
              haa
        rw [List.filterMap_cons_some hfa, List.filter_cons]
        rw [if_neg (by simp [hpbb])]
        exact hih

/-- Helper: under the tree precondition the keep-set membership of a row
is exactly: branch point (more than one row names it as parent), tip
(no row names it as parent), root (`link = -1`), or stride sample. -/
theorem keepId_characterization (rows : List Parser.Row) (depth : ℤ → ℕ)
    (ht : Parser.TreeInput rows depth) (r : Parser.Row) (hr : r ∈ rows) :
    Parser.keepId rows r.id = true ↔
      (2 ≤ (rows.filter (fun r2 => decide (r2.link = r.id))).length ∨
        (∀ r2 ∈ rows, r2.link ≠ r.id) ∨
        r.link = -1 ∨
        ∃ k, ∃ hk : k < rows.length, k % Parser.KEEP_EVERY_NTH = 0 ∧
          rows.get ⟨k, hk⟩ = r) := by
  obtain ⟨hnd, hid, hlink, hdec⟩ := ht
  have hidne : r.id ≠ -1 := hid r hr
  have hbranch : Parser.isBranchPoint rows r.id = true ↔
      2 ≤ (rows.filter (fun r2 => decide (r2.link = r.id))).length := by
    simp [Parser.isBranchPoint, hidne]
  have htip : Parser.isTip rows r.id = true ↔
      ∀ r2 ∈ rows, r2.link ≠ r.id := by
    have hany : rows.any (fun r2 => decide (r2.id = r.id)) = true :=
      List.any_eq_true.mpr ⟨r, hr, by simp⟩
    rw [Parser.isTip, hany, Bool.true_and, Bool.not_eq_true']
    rw [Parser.isNamedParent, List.any_eq_false]
    constructor
    · intro hall r2 hr2 habs
      have := hall r2 hr2
      simp only [Bool.and_eq_true, decide_eq_true_eq, not_and] at this
      exact (this habs) (habs ▸ hidne)
    · intro hall r2 hr2
      simp only [Bool.and_eq_true, decide_eq_true_eq, not_and]
      intro habs
      exact absurd habs (hall r2 hr2)
  have hroot : Parser.isRootId rows r.id = true ↔ r.link = -1 := by
    simp only [Parser.isRootId, List.any_eq_true, Bool.and_eq_true,
      decide_eq_true_eq]
    constructor
    · rintro ⟨r2, hr2, hid2, hl2⟩
      have heq : r2 = r := List.inj_on_of_nodup_map hnd hr2 hr hid2
      rw [← heq]
      exact hl2
    · intro hl
      exact ⟨r, hr, rfl, hl⟩
  have hstride : Parser.isStrideKept rows r.id = true ↔
      ∃ k, ∃ hk : k < rows.length, k % Parser.KEEP_EVERY_NTH = 0 ∧
        rows.get ⟨k, hk⟩ = r := by
    simp only [Parser.isStrideKept, List.any_eq_true, decide_eq_true_eq]
    constructor
    · rintro ⟨x, hx, hxe⟩
      subst hxe
      obtain ⟨k, hk, hmod, hidk⟩ := (strideAux_mem rows 0 r.id).mp hx
      have hmem : rows.get ⟨k, hk⟩ ∈ rows := rows.get_mem k hk
      have heq : rows.get ⟨k, hk⟩ = r :=
        List.inj_on_of_nodup_map hnd hmem hr hidk
      exact ⟨k, hk, by simpa using hmod, heq⟩
    · rintro ⟨k, hk, hmod, hget⟩
      refine ⟨r.id, ?_, rfl⟩
      refine (strideAux_mem rows 0 r.id).mpr
        ⟨k, hk, by simpa using hmod, by rw [hget]⟩
  rw [Parser.keepId]
  simp only [Bool.or_eq_true]
  rw [hbranch, htip, hroot, hstride]
  tauto

/-- Helper: the edge-producing function of the reduction records, in the
child slot, the index of the row it was called on. -/
theorem downsampleEdgeFun_inv (rows : List Parser.Row) (r2 : Parser.Row)
    (e : ℕ × ℕ)
    (hfe : (match Parser.effectiveParent rows rows.length r2.link with
      | none => none
      | some p =>
        if p = -1 then none
        else
          match Parser.jsMapIdx (Parser.keptRows rows) p,
              Parser.jsMapIdx (Parser.keptRows rows) r2.id with
          | some pj, some cj => some (pj, cj)
          | _, _ => none) = some e) :
    Parser.jsMapIdx (Parser.keptRows rows) r2.id = some e.2 := by
  cases hp : Parser.effectiveParent rows rows.length r2.link with
  | none => simp [hp] at hfe
  | some p =>
    simp only [hp] at hfe
    by_cases hpneg : p = -1
    · rw [if_pos hpneg] at hfe
      cases hfe
    · rw [if_neg hpneg] at hfe
      cases hpj : Parser.jsMapIdx (Parser.keptRows rows) p with
      | none =>
        rw [hpj] at hfe
        cases hcj : Parser.jsMapIdx (Parser.keptRows rows) r2.id with
        | none => rw [hcj] at hfe; cases hfe
        | some cj => rw [hcj] at hfe; cases hfe
      | some pj =>
        rw [hpj] at hfe
        cases hcj : Parser.jsMapIdx (Parser.keptRows rows) r2.id with
        | none => rw [hcj] at hfe; cases hfe
        | some cj =>
          rw [hcj] at hfe
          obtain rfl : (pj, cj) = e := by simpa using hfe
          simp [hcj]

/-- C2: under the tree precondition, the reduction keeps exactly the
branch points (named as parent by more than one row), tips (never named
as parent), roots (`link = -1`) and every `KEEP_EVERY_NTH`-th row by
input order; every root, branch point and tip contributes its position
to the output nodes; every non-root kept row contributes exactly one
edge, joining the index of the first kept id on its original parent
chain (its nearest kept ancestor) to its own index; and the reduced edge
set is acyclic. -/
theorem downsample_topology (rows : List Parser.Row) (depth : ℤ → ℕ)
    (ht : Parser.TreeInput rows depth) :
    (∀ r ∈ rows, (r ∈ Parser.keptRows rows ↔
      (2 ≤ (rows.filter (fun r2 => decide (r2.link = r.id))).length ∨
        (∀ r2 ∈ rows, r2.link ≠ r.id) ∨ r.link = -1 ∨
        ∃ k, ∃ hk : k < rows.length, k % Parser.KEEP_EVERY_NTH = 0 ∧
          rows.get ⟨k, hk⟩ = r))) ∧
    (∀ r ∈ rows,
      (r.link = -1 ∨
        2 ≤ (rows.filter (fun r2 => decide (r2.link = r.id))).length ∨
        (∀ r2 ∈ rows, r2.link ≠ r.id)) →
      Parser.Row.pos r ∈ (Parser.downsampleSkeleton rows).1) ∧
    (∀ r ∈ Parser.keptRows rows, r.link ≠ -1 →
      ∃ q k pj cj,
        q = (fun x => Parser.linkOf rows x)^[k] r.link ∧
        (∀ j < k, (fun x => Parser.linkOf rows x)^[j] r.link ≠ -1 ∧
          Parser.keepId rows
            ((fun x => Parser.linkOf rows x)^[j] r.link) = false) ∧
        Parser.keepId rows q = true ∧
        Parser.jsMapIdx (Parser.keptRows rows) q = some pj ∧
        Parser.jsMapIdx (Parser.keptRows rows) r.id = some cj ∧
        (pj, cj) ∈ (Parser.downsampleSkeleton rows).2 ∧
        ((Parser.downsampleSkeleton rows).2.filter
          (fun e => decide (e.2 = cj))).length = 1) ∧
    (∀ n : ℕ, ¬ Relation.TransGen
      (fun a b => (a, b) ∈ (Parser.downsampleSkeleton rows).2) n n) := by
  have hkeptmapnd : ((Parser.keptRows rows).map Parser.Row.id).Nodup := by
    have hsub : List.Sublist (Parser.keptRows rows) rows :=
      List.filter_sublist rows
    exact List.Nodup.sublist (hsub.map Parser.Row.id) ht.1
  have hkeptnd : (Parser.keptRows rows).Nodup :=
    List.Nodup.of_map Parser.Row.id hkeptmapnd
  refine ⟨?_, ?_, ?_, ?_⟩
  · intro r hr
    rw [Parser.keptRows, List.mem_filter]
    constructor
    · intro h
      exact (keepId_characterization rows depth ht r hr).mp h.2
    · intro h
      exact ⟨hr, (keepId_characterization rows depth ht r hr).mpr h⟩
  · intro r hr hcond
    have hkeep : Parser.keepId rows r.id = true :=
      (keepId_characterization rows depth ht r hr).mpr (by tauto)
    have hmemk : r ∈ Parser.keptRows rows := by
      rw [Parser.keptRows, List.mem_filter]
      exact ⟨hr, hkeep⟩
    exact List.mem_map.mpr ⟨r, hmemk, rfl⟩
  · intro r hr hl
    obtain ⟨q, pj, cj, hq, hkeep, hqneg, hpj, hcj, hmem, _⟩ :=
      downsampleEdge_of_kept rows depth ht r hr hl
    obtain ⟨k, hqe, hint, _⟩ :=
      effectiveParent_spec rows rows.length r.link q hq
    refine ⟨q, k, pj, cj, hqe, hint, hkeep, hpj, hcj, hmem, ?_⟩
    refine filterMap_filter_length_one (Parser.keptRows rows)
      (fun r3 =>
        match Parser.effectiveParent rows rows.length r3.link with
        | none => none
        | some p =>
          if p = -1 then none
          else
            match Parser.jsMapIdx (Parser.keptRows rows) p,
                Parser.jsMapIdx (Parser.keptRows rows) r3.id with
            | some pj2, some cj2 => some (pj2, cj2)
            | _, _ => none)
      (fun e => decide (e.2 = cj)) r hr hkeptnd (pj, cj) ?_ ?_ ?_
    · simp [hq, hqneg, hpj, hcj]
    · simp
    · intro r2 hr2 b hfb hpbb
      have hcjb : Parser.jsMapIdx (Parser.keptRows rows) r2.id =
          some b.2 := downsampleEdgeFun_inv rows r2 b hfb
      have hb2 : b.2 = cj := by simpa using hpbb
      rw [hb2] at hcjb
      obtain ⟨hjc, hidc⟩ := jsMapIdx_get _ r2.id cj hcjb
      obtain ⟨hjc2, hidc2⟩ := jsMapIdx_get _ r.id cj hcj
      have hid12 : r2.id = r.id := hidc.symm.trans hidc2
      exact List.inj_on_of_nodup_map hkeptmapnd hr2 hr hid12
  · have hedge : ∀ e ∈ Parser.downsampleEdges rows,
        depth ((((Parser.keptRows rows).get? e.1).map
          Parser.Row.id).getD (-1)) <
        depth ((((Parser.keptRows rows).get? e.2).map
          Parser.Row.id).getD (-1)) := by
      intro e he
      obtain ⟨r2, hr2, hl2, p, pj, hp, hpneg, hpj, hcjE, heq⟩ :=
        mem_downsampleEdges_inv rows e he
      obtain ⟨hjp, hidp⟩ := jsMapIdx_get _ p pj hpj
      obtain ⟨hjc, hidc⟩ := jsMapIdx_get _ r2.id e.2 hcjE
      have h1 : (((Parser.keptRows rows).get? e.1).map
          Parser.Row.id).getD (-1) = p := by
        rw [heq]
        simp only [List.get?_eq_getElem?, List.getElem?_eq_getElem hjp,
          Option.map_some', Option.getD_some]
        simpa [List.get_eq_getElem] using hidp
      have h2 : (((Parser.keptRows rows).get? e.2).map
          Parser.Row.id).getD (-1) = r2.id := by
        simp only [List.get?_eq_getElem?, List.getElem?_eq_getElem hjc,
          Option.map_some', Option.getD_some]
        simpa [List.get_eq_getElem] using hidc
      rw [h1, h2]
      have hr2rows : r2 ∈ rows := List.mem_of_mem_filter hr2
      obtain ⟨_, _, _, hdep⟩ :=
        effectiveParent_result_props rows depth ht r2 hr2rows hl2 p hp
      have hstep := ht.2.2.2 r2 hr2rows hl2
      omega
    intro n htg
    have hmono : ∀ a b : ℕ, Relation.TransGen
        (fun a b => (a, b) ∈ (Parser.downsampleSkeleton rows).2) a b →
        depth ((((Parser.keptRows rows).get? a).map
          Parser.Row.id).getD (-1)) <
        depth ((((Parser.keptRows rows).get? b).map
          Parser.Row.id).getD (-1)) := by
      intro a b h
      induction h with
      | single h1 => exact hedge _ h1
      | tail h1 h2 ih => exact lt_trans ih (hedge _ h2)
    exact absurd (hmono n n htg) (lt_irrefl _)

/-- C2 witness: the reduction theorem applied to a concrete three-row
chain skeleton; in particular its reduced edge set is acyclic. -/
theorem downsample_topology_witness :
    Parser.TreeInput
      [⟨1, 0, 0, 0, 1, -1, none⟩, ⟨2, 1, 0, 0, 1, 1, none⟩,
        ⟨3, 2, 0, 0, 1, 2, none⟩] (fun i => i.toNat) ∧
    ∀ n : ℕ, ¬ Relation.TransGen
      (fun a b => (a, b) ∈ (Parser.downsampleSkeleton
        [⟨1, 0, 0, 0, 1, -1, none⟩, ⟨2, 1, 0, 0, 1, 1, none⟩,
          ⟨3, 2, 0, 0, 1, 2, none⟩]).2) n n :=
  ⟨⟨by decide, by decide, by decide, by decide⟩,
    (downsample_topology
      [⟨1, 0, 0, 0, 1, -1, none⟩, ⟨2, 1, 0, 0, 1, 1, none⟩,
        ⟨3, 2, 0, 0, 1, 2, none⟩] (fun i => i.toNat)
      ⟨by decide, by decide, by decide, by decide⟩).2.2.2⟩

/-- Helper: a dangling parent id (present in no row) resolves to `-1`,
the JS `linkMap.get(parent) ?? -1`. -/
theorem linkOf_of_not_mem (rows : List Parser.Row) (i : ℤ)
    (h : i ∉ rows.map Parser.Row.id) : Parser.linkOf rows i = -1 := by
  simp only [Parser.linkOf, jsLinkLookup_eq_none rows i h, Option.getD_none]

/-- Helper: if the walk's stop condition (`-1` or kept) holds somewhere
on the chain within `m` steps, the walk succeeds on any fuel of at least
`m`. -/
theorem effectiveParent_some_of_stop (rows : List Parser.Row) :
    ∀ m p f, m ≤ f →
      ((fun x => Parser.linkOf rows x)^[m] p = -1 ∨
        Parser.keepId rows ((fun x => Parser.linkOf rows x)^[m] p) = true) →
      ∃ q, Parser.effectiveParent rows f p = some q := by
  intro m
  induction m with
  | zero =>
    intro p f _ hstop
    simp only [Function.iterate_zero_apply] at hstop
    cases f with
    | zero =>
      rcases hstop with h1 | h2
      · exact ⟨p, by simp [Parser.effectiveParent, h1]⟩
      · exact ⟨p, by simp [Parser.effectiveParent, h2]⟩
    | succ f2 =>
      rcases hstop with h1 | h2
      · exact ⟨p, by simp [Parser.effectiveParent, h1]⟩
      · exact ⟨p, by simp [Parser.effectiveParent, h2]⟩
  | succ n ih =>
    intro p f hmf hstop
    cases f with
    | zero => omega
    | succ f2 =>
      by_cases hp : p = -1
      · exact ⟨p, by simp [Parser.effectiveParent, hp]⟩
      · by_cases hk : Parser.keepId rows p = true
        · exact ⟨p, by simp [Parser.effectiveParent, hp, hk]⟩
        · have hstep : (fun x => Parser.linkOf rows x)^[n]
              (Parser.linkOf rows p) = -1 ∨
              Parser.keepId rows ((fun x => Parser.linkOf rows x)^[n]
                (Parser.linkOf rows p)) = true := by
            rw [← Function.iterate_succ_apply]
            exact hstop
          obtain ⟨q, hq⟩ := ih (Parser.linkOf rows p) f2 (by omega) hstep
          refine ⟨q, ?_⟩
          have hred : Parser.effectiveParent rows (f2 + 1) p =
              Parser.effectiveParent rows f2 (Parser.linkOf rows p) := by
            simp [Parser.effectiveParent, hp, hk]
          rw [hred]
          exact hq

/-- Helper (pigeonhole): if every chain of parent links from a known id
terminates at all, then from any row's link the walk's stop condition is
met within `rows.length` steps — later chain elements before the stop are
pairwise distinct known ids, and a full sweep of all ids would have to
revisit the starting link. -/
theorem stop_within_length (rows : List Parser.Row)
    (hac : Parser.ChainsTerminate rows) (r : Parser.Row) (hr : r ∈ rows) :
    ∃ m, m ≤ rows.length ∧
      ((fun x => Parser.linkOf rows x)^[m] r.link = -1 ∨
        Parser.keepId rows
          ((fun x => Parser.linkOf rows x)^[m] r.link) = true) := by
  have hlen1 : 1 ≤ rows.length :=
    List.length_pos.mpr (List.ne_nil_of_mem hr)
  by_cases h1 : r.link = -1
  · exact ⟨0, by omega, Or.inl (by simpa using h1)⟩
  by_cases h2 : Parser.keepId rows r.link = true
  · exact ⟨0, by omega, Or.inr (by simpa using h2)⟩
  by_cases h3 : r.link ∈ rows.map Parser.Row.id
  case neg =>
    refine ⟨1, by omega, Or.inl ?_⟩
    simp only [Function.iterate_one]
    exact linkOf_of_not_mem rows r.link h3
  case pos =>
  have hex : ∃ n : ℕ,
      ((fun x => Parser.linkOf rows x)^[n] r.link = -1 ∨
        Parser.keepId rows
          ((fun x => Parser.linkOf rows x)^[n] r.link) = true) := by
    obtain ⟨n, hn⟩ := hac r.link h3
    rcases hn with hterm | hout
    · exact ⟨n, Or.inl hterm⟩
    · by_cases hkn : Parser.keepId rows
          ((fun x => Parser.linkOf rows x)^[n] r.link) = true
      · exact ⟨n, Or.inr hkn⟩
      · refine ⟨n + 1, Or.inl ?_⟩
        rw [Function.iterate_succ_apply']
        exact linkOf_of_not_mem rows _ hout
  refine ⟨Nat.find hex, ?_, Nat.find_spec hex⟩
  by_contra hgt
  push_neg at hgt
  have hmin := fun j (hj : j < Nat.find hex) => Nat.find_min hex hj
  have hdist : ∀ i j, i < j → j < Nat.find hex →
      (fun x => Parser.linkOf rows x)^[i] r.link ≠
        (fun x => Parser.linkOf rows x)^[j] r.link := by
    intro i j hij hjm heq
    have hdecomp : (fun x => Parser.linkOf rows x)^[Nat.find hex] r.link =
        (fun x => Parser.linkOf rows x)^[Nat.find hex - j + i] r.link := by
      have e1 : (fun x => Parser.linkOf rows x)^[Nat.find hex] r.link =
          (fun x => Parser.linkOf rows x)^[Nat.find hex - j]
            ((fun x => Parser.linkOf rows x)^[j] r.link) := by
        rw [← Function.iterate_add_apply]
        congr 1
        omega
      rw [e1, ← heq, ← Function.iterate_add_apply]
    have hPm := Nat.find_spec hex
    rw [hdecomp] at hPm
    exact hmin (Nat.find hex - j + i) (by omega) hPm
  have hin : ∀ j, j + 1 < Nat.find hex →
      (fun x => Parser.linkOf rows x)^[j] r.link ∈
        rows.map Parser.Row.id := by
    intro j hj
    by_contra hnotin
    have hnext : (fun x => Parser.linkOf rows x)^[j + 1] r.link = -1 := by
      rw [Function.iterate_succ_apply']
      exact linkOf_of_not_mem rows _ hnotin
    exact hmin (j + 1) hj (Or.inl hnext)
  have hmaps : ∀ j ∈ Finset.range (Nat.find hex - 1),
      (fun x => Parser.linkOf rows x)^[j] r.link ∈
        (rows.map Parser.Row.id).toFinset := by
    intro j hjr
    rw [Finset.mem_range] at hjr
    exact List.mem_toFinset.mpr (hin j (by omega))
  have hinj : Set.InjOn
      (fun j => (fun x => Parser.linkOf rows x)^[j] r.link)
      (Finset.range (Nat.find hex - 1)) := by
    intro i hi j hj heq
    simp only [Finset.coe_range, Set.mem_Iio] at hi hj
    by_contra hne
    rcases Nat.lt_or_ge i j with hij | hij
    · exact hdist i j hij (by omega) heq
    · have hji : j < i := by omega
      exact hdist j i hji (by omega) heq.symm
  have hcard1 : Nat.find hex - 1 ≤ (rows.map Parser.Row.id).toFinset.card := by
    have := Finset.card_le_card_of_injOn
      (fun j => (fun x => Parser.linkOf rows x)^[j] r.link) hmaps hinj
    simpa using this
  have hcard2 : (rows.map Parser.Row.id).toFinset.card ≤ rows.length := by
    have h := List.card_toFinset (l := rows.map Parser.Row.id)
    have h2 := List.Sublist.length_le
      (List.dedup_sublist (rows.map Parser.Row.id))
    simp only [List.length_map] at h2
    omega
  have hnd : (rows.map Parser.Row.id).Nodup := by
    have h := List.card_toFinset (l := rows.map Parser.Row.id)
    have hded : (rows.map Parser.Row.id).dedup = rows.map Parser.Row.id := by
      apply List.Sublist.eq_of_length
        (List.dedup_sublist (rows.map Parser.Row.id))
      simp only [List.length_map]
      omega
    rw [← hded]
    exact List.nodup_dedup _
  have hsurj : (Finset.range (Nat.find hex - 1)).image
      (fun j => (fun x => Parser.linkOf rows x)^[j] r.link) =
      (rows.map Parser.Row.id).toFinset := by
    apply Finset.eq_of_subset_of_card_le
    · intro x hx
      obtain ⟨j, hj, rfl⟩ := Finset.mem_image.mp hx
      exact hmaps j hj
    · rw [Finset.card_image_of_injOn hinj, Finset.card_range]
      have h := List.card_toFinset (l := rows.map Parser.Row.id)
      omega
  have hridmem : r.id ∈ (rows.map Parser.Row.id).toFinset :=
    List.mem_toFinset.mpr (List.mem_map.mpr ⟨r, hr, rfl⟩)
  rw [← hsurj] at hridmem
  obtain ⟨j, hjr, hje⟩ := Finset.mem_image.mp hridmem
  rw [Finset.mem_range] at hjr
  have hnext : (fun x => Parser.linkOf rows x)^[j + 1] r.link = r.link := by
    rw [Function.iterate_succ_apply', hje]
    exact linkOf_eq rows hnd r hr
  refine hdist 0 (j + 1) (by omega) (by omega) ?_
  simp only [Function.iterate_zero_apply]
  exact hnext.symm

/-- C9: under the claim's acyclicity precondition — every chain of
parent links reaches `-1` or leaves the id set after finitely many steps
(dangling parents and duplicate ids allowed) — the effective-parent walk
(run with fuel `rows.length` in the embedding, mirroring the unbounded
JS loop) terminates for every kept row, reaching either a kept id or
`-1`; the reduction is total. -/
theorem effectiveParent_total_acyclic (rows : List Parser.Row)
    (hac : Parser.ChainsTerminate rows) :
    ∀ r ∈ Parser.keptRows rows, ∃ q,
      Parser.effectiveParent rows rows.length r.link = some q ∧
      (q = -1 ∨ Parser.keepId rows q = true) := by
  intro r hr
  have hrrows : r ∈ rows := List.mem_of_mem_filter hr
  obtain ⟨m, hmle, hstop⟩ := stop_within_length rows hac r hrrows
  obtain ⟨q, hq⟩ :=
    effectiveParent_some_of_stop rows m r.link rows.length hmle hstop
  obtain ⟨k, _, _, hterm⟩ :=
    effectiveParent_spec rows rows.length r.link q hq
  exact ⟨q, hq, hterm⟩

/-- C9 witness: the theorem applied to a concrete skeleton with a
branching chain and a dangling parent (row 3 names the nonexistent
id 99). -/
theorem effectiveParent_total_acyclic_witness :
    Parser.ChainsTerminate
      [⟨1, 0, 0, 0, 1, -1, none⟩, ⟨2, 1, 0, 0, 1, 1, none⟩,
        ⟨3, 2, 0, 0, 1, 99, none⟩] ∧
    ∀ r ∈ Parser.keptRows
        [⟨1, 0, 0, 0, 1, -1, none⟩, ⟨2, 1, 0, 0, 1, 1, none⟩,
          ⟨3, 2, 0, 0, 1, 99, none⟩], ∃ q,
      Parser.effectiveParent
        [⟨1, 0, 0, 0, 1, -1, none⟩, ⟨2, 1, 0, 0, 1, 1, none⟩,
          ⟨3, 2, 0, 0, 1, 99, none⟩]
        ([⟨1, 0, 0, 0, 1, -1, none⟩, ⟨2, 1, 0, 0, 1, 1, none⟩,
          ⟨3, 2, 0, 0, 1, 99, none⟩] : List Parser.Row).length r.link =
          some q ∧
      (q = -1 ∨ Parser.keepId
        [⟨1, 0, 0, 0, 1, -1, none⟩, ⟨2, 1, 0, 0, 1, 1, none⟩,
          ⟨3, 2, 0, 0, 1, 99, none⟩] q = true) := by
  have hac : Parser.ChainsTerminate
      [⟨1, 0, 0, 0, 1, -1, none⟩, ⟨2, 1, 0, 0, 1, 1, none⟩,
        ⟨3, 2, 0, 0, 1, 99, none⟩] := by
    intro i hi
    have hi3 : i = 1 ∨ i = 2 ∨ i = 3 := by
      simpa using hi
    rcases hi3 with rfl | rfl | rfl
    · exact ⟨1, Or.inl (by decide)⟩
    · exact ⟨2, Or.inl (by decide)⟩
    · exact ⟨1, Or.inr (by decide)⟩
  exact ⟨hac, effectiveParent_total_acyclic _ hac⟩
